import Mathlib

/-!
Verification development for the established-connection state machine of
substrate-lite (src/network/libp2p/connection/established.rs).

The engine code of established.rs is embedded faithfully below.  Its four
collaborators (the noise cipher, the yamux multiplexer, the
multistream-select negotiation state machine and the leb128 framed reader)
live outside the file in scope; they are modelled from the specification's
collaborator contracts (spec section 6), as simple executable instantiations
of those interfaces:

* time is `Nat` (an opaque totally ordered value per the spec);
* the cipher is the identity transformation: injected data lands in the
  decoded-inbound buffer unchanged and encryption is size preserving;
* the decoded plaintext is a stream of already-delimited multiplexer frames
  (`Frame`), so one multiplexer parse step consumes one frame;
* the negotiation fsm interprets the first byte of its input as the remote
  selection: a byte below the supported-list length selects that protocol
  (for a dialer, byte 0 accepts the requested protocol), byte 254 means
  not-available, byte 255 is a negotiation error, anything else keeps the
  negotiation in progress and consumes the whole input;
* the framed reader is length prefixed: the first byte of a frame is the
  frame length (standing for its LEB128 prefix), followed by that many
  bytes.

Bytes are modelled as `Nat`; protocol names as `String`.
-/

namespace SubLite

/-- A byte of substream payload data. -/
abbrev Byte := Nat

/-- A protocol name (the source's TProto, used through AsRef of str). -/
abbrev Proto := String

/-! ## Multistream-select negotiation (modelled collaborator) -/

/-- Modelled from the spec: the role configuration of a multistream-select
negotiation (Config::Listener with its supported protocols, or
Config::Dialer with its requested protocol). -/
inductive NegoRole where
  | listener (supported : List Proto)
  | dialer (requested : Proto)
  deriving Repr, DecidableEq

/-- Modelled from the spec: an in-progress multistream-select negotiation
(multistream_select::InProgress). -/
structure Nego where
  role : NegoRole
  deriving Repr, DecidableEq

/-- Modelled from the spec: the outcome component of
multistream_select read_write_vec (Negotiation::InProgress, Success or
NotAvailable). -/
inductive NegoOutcome where
  | inProgress (n : Nego)
  | success (p : Proto)
  | notAvailable
  deriving Repr, DecidableEq

/-- Modelled from the spec: read_write_vec of the negotiation state machine.
Returns the negotiation outcome, the number of bytes read, and the bytes to
write out, or a negotiation error.  The first input byte encodes the
remote's answer: a byte below the supported-list length selects that
protocol (byte 0 accepts a dialer's requested protocol), 254 means the
protocol is not available, 255 is a protocol error; any other byte keeps
the negotiation in progress, consuming the whole input. -/
def Nego.readWriteVec (n : Nego) (data : List Byte) :
    Except Unit (NegoOutcome × Nat × List Byte) :=
  match data with
  | [] => .ok (.inProgress n, 0, [])
  | b :: _ =>
    match n.role with
    | .listener ps =>
      if h : b < ps.length then .ok (.success (ps.get ⟨b, h⟩), 1, [90])
      else if b = 254 then .ok (.notAvailable, 1, [91])
      else if b = 255 then .error ()
      else .ok (.inProgress n, data.length, [92])
    | .dialer _p =>
      if b = 0 then .ok (.success _p, 1, [90])
      else if b = 254 then .ok (.notAvailable, 1, [91])
      else if b = 255 then .error ()
      else .ok (.inProgress n, data.length, [92])

/-! ## LEB128 framing (modelled collaborator) -/

/-- Modelled from the spec: leb128 encode_usize, the length prefix written
in front of request and handshake payloads.  One model byte carries the
full length. -/
def lebEncode (len : Nat) : List Byte := [len]

/-- Modelled from the spec: the leb128 framed reader (leb128::Framed): a
length-prefixed message accumulator bounded by a maximum frame size.
`pending` holds a completed frame not yet taken, `need` the number of
payload bytes still expected (none while awaiting the length prefix). -/
structure Framed where
  maxLen : Nat
  pending : Option (List Byte)
  need : Option Nat
  acc : List Byte
  deriving Repr, DecidableEq

/-- Modelled from the spec: construction of a framed reader with the given
maximum frame size. -/
def Framed.new (maxLen : Nat) : Framed :=
  { maxLen := maxLen, pending := none, need := none, acc := [] }

/-- Modelled from the spec: inject_data of the framed reader.  Consumes
input bytes until a frame is complete (or the input runs out) and returns
how many bytes were read; a length prefix exceeding the maximum frame size
is an error.  While a completed frame is pending, no further byte is
consumed. -/
def Framed.injectData (f : Framed) (data : List Byte) :
    Except Unit (Nat × Framed) :=
  match data with
  | [] => .ok (0, f)
  | b :: rest =>
    match f.pending with
    | some _ => .ok (0, f)
    | none =>
      match f.need with
      | none =>
        if f.maxLen < b then .error ()
        else if b = 0 then .ok (1, { f with pending := some [] })
        else
          match (Framed.injectData { f with need := some b, acc := [] } rest : Except Unit (Nat × Framed)) with
          | .ok (n, f2) => .ok (n + 1, f2)
          | .error e => .error e
      | some k =>
        if k ≤ 1 then .ok (1, { f with pending := some (f.acc ++ [b]), need := none, acc := [] })
        else
          match (Framed.injectData { f with need := some (k - 1), acc := f.acc ++ [b] } rest : Except Unit (Nat × Framed)) with
          | .ok (n, f2) => .ok (n + 1, f2)
          | .error e => .error e

/-- Modelled from the spec: take_frame of the framed reader. -/
def Framed.takeFrame (f : Framed) : Option (List Byte) × Framed :=
  (f.pending, { f with pending := none })

/-! ## Substream states (established.rs) -/

/-- The per-substream state machine of established.rs (enum Substream),
stored as user data of a multiplexer substream.  User tags (TRqUd) are
modelled as Nat. -/
inductive Substream where
  | poisoned
  | inboundNegotiating (nego : Nego)
  | negotiationFailed
  | notificationsOutNegotiating (timeout : Nat) (nego : Nego) (handshake : List Byte)
  | notificationsOutHandshakeRecv (handshake : Framed)
  | notificationsOut
  | notificationsInHandshake (handshake : Framed) (protocol : Proto)
  | notificationsInWait
  | requestOutNegotiating (timeout : Nat) (nego : Nego) (request : List Byte) (userData : Nat)
  | requestOut (timeout : Nat) (userData : Nat) (response : Framed)
  | requestInRecv (request : Framed) (protocol : Proto)
  | requestInSend
  | pingIn (payload : List Byte)
  deriving Repr, DecidableEq

/-- The timeout carried by a deadline-bearing substream state: exactly the
states RequestOutNegotiating and RequestOut participate in the engine's
timeout scan (Established::update_now). -/
def Substream.requestTimeout : Substream → Option Nat
  | .requestOutNegotiating t _ _ _ => some t
  | .requestOut t _ _ => some t
  | _ => none

/-- The user tag carried by a deadline-bearing substream state. -/
def Substream.requestUserData : Substream → Option Nat
  | .requestOutNegotiating _ _ _ ud => some ud
  | .requestOut _ ud _ => some ud
  | _ => none

/-! ## Yamux multiplexer (modelled collaborator) -/

/-- Modelled from the spec: what the multiplexer stores per substream: the
user data (here a Substream state), the queue of buffers waiting to be
written out, and whether the local write side was closed. -/
structure Entry where
  state : Substream
  writeQueue : List (List Byte)
  closed : Bool
  deriving Repr, DecidableEq

/-- Modelled from the spec: one already-delimited multiplexer frame of the
decoded plaintext stream: a remote request to open a substream, a data
frame belonging to a substream, or a substream reset. -/
inductive Frame where
  | openSub
  | dataFrame (id : Nat) (payload : List Byte)
  | resetFrame (id : Nat)
  deriving Repr, DecidableEq

/-- Modelled from the spec: the detail component of the multiplexer's
incoming_data result (yamux::IncomingDataDetail). -/
inductive Detail where
  | incomingSubstream
  | streamReset (id : Nat) (userData : Substream)
  | dataFrame (id : Nat) (payload : List Byte)
  deriving Repr, DecidableEq

/-- Modelled from the spec: the multiplexer state (yamux::Yamux): the table
of open substreams keyed by their identifier, and the next identifier to
allocate.  Identifiers are never reused. -/
structure Yamux where
  substreams : List (Nat × Entry)
  nextId : Nat
  deriving Repr, DecidableEq

/-- Modelled from the spec: substream lookup by identifier. -/
def Yamux.lookup (y : Yamux) (i : Nat) : Option Entry :=
  match y.substreams.find? (fun p => p.1 = i) with
  | some p => some p.2
  | none => none

/-- Modelled from the spec: removal of a substream (the effect of a reset). -/
def Yamux.remove (y : Yamux) (i : Nat) : Yamux :=
  { y with substreams := y.substreams.filter (fun p => ¬ p.1 = i) }

/-- Modelled from the spec: in-place update of a substream's entry. -/
def Yamux.setEntry (y : Yamux) (i : Nat) (en : Entry) : Yamux :=
  { y with substreams := y.substreams.map (fun p => if p.1 = i then (i, en) else p) }

/-- Modelled from the spec: accept_pending_substream: the pending inbound
substream is created with a fresh identifier and the given user data. -/
def Yamux.acceptPending (y : Yamux) (st : Substream) : Yamux :=
  { substreams := y.substreams ++ [(y.nextId, { state := st, writeQueue := [], closed := false })],
    nextId := y.nextId + 1 }

/-- Modelled from the spec: open_substream: a locally opened substream with
a fresh identifier and the given user data; returns the new identifier. -/
def Yamux.openSubstream (y : Yamux) (st : Substream) : Yamux × Nat :=
  ({ substreams := y.substreams ++ [(y.nextId, { state := st, writeQueue := [], closed := false })],
     nextId := y.nextId + 1 }, y.nextId)

/-- Modelled from the spec: incoming_data: parse the decoded plaintext (one
frame per step) and report the detail.  A reset of a live substream removes
it and hands back its user data; frames referring to dead identifiers are
skipped. -/
def Yamux.incomingData (y : Yamux) (buf : List Frame) : Yamux × Nat × Option Detail :=
  match buf with
  | [] => (y, 0, none)
  | .openSub :: _ => (y, 1, some .incomingSubstream)
  | .dataFrame i p :: _ =>
    match y.lookup i with
    | some _ => (y, 1, some (.dataFrame i p))
    | none => (y, 1, none)
  | .resetFrame i :: _ =>
    match y.lookup i with
    | some en => (y.remove i, 1, some (.streamReset i en.state))
    | none => (y, 1, none)

/-- Modelled from the spec: take up to max bytes from the front of one
substream's write queue, returning the bytes taken and the remaining
queue. -/
def takeFromQueue : List (List Byte) → Nat → List Byte × List (List Byte)
  | [], _ => ([], [])
  | b :: rest, max =>
    if max = 0 then ([], b :: rest)
    else if b.length ≤ max then
      let r := takeFromQueue rest (max - b.length)
      (b ++ r.1, r.2)
    else
      (b.take max, b.drop max :: rest)

/-- Modelled from the spec: extract up to max bytes of outbound plaintext
from the substreams in order. -/
def extractFromSubs : List (Nat × Entry) → Nat → List Byte × List (Nat × Entry)
  | [], _ => ([], [])
  | (i, en) :: rest, max =>
    let t := takeFromQueue en.writeQueue max
    let r := extractFromSubs rest (max - t.1.length)
    (t.1 ++ r.1, (i, { en with writeQueue := t.2 }) :: r.2)

/-- Modelled from the spec: extract_out of the multiplexer. -/
def Yamux.extractOut (y : Yamux) (max : Nat) : List Byte × Yamux :=
  let r := extractFromSubs y.substreams max
  (r.1, { y with substreams := r.2 })

/-! ## Noise cipher (modelled collaborator) -/

/-- Modelled from the spec: the noise cipher state together with its buffer
of decoded-but-unparsed inbound data.  The cipher itself is modelled as the
identity transformation, so the buffer directly holds multiplexer frames. -/
structure Noise where
  decoded : List Frame
  deriving Repr, DecidableEq

/-- Modelled from the spec: inject_inbound_data: every injected frame is
decoded into the internal buffer; returns the number of units consumed. -/
def Noise.injectInboundData (n : Noise) (data : List Frame) : Noise × Nat :=
  ({ decoded := n.decoded ++ data }, data.length)

/-- Modelled from the spec: consume_inbound_data. -/
def Noise.consumeInboundData (n : Noise) (k : Nat) : Noise :=
  { decoded := n.decoded.drop k }

/-! ## The engine (established.rs) -/

/-- The connection engine (struct Established): the cipher state, the
multiplexer state, the cached next-timeout, and the three protocol
configuration values. -/
structure Established where
  encryption : Noise
  yamux : Yamux
  nextTimeout : Option Nat
  inRequestProtocols : List Proto
  inNotificationsProtocols : List Proto
  pingProtocol : Proto
  deriving Repr, DecidableEq

/-- The request errors of established.rs (enum RequestError). -/
inductive RequestError where
  | timeout
  | protocolNotAvailable
  | substreamReset
  | negotiationError
  | responseLebError
  deriving Repr, DecidableEq

/-- The result carried by a Response event (Result of Vec u8 and
RequestError). -/
inductive RequestOutcome where
  | ok (bytes : List Byte)
  | err (e : RequestError)
  deriving Repr, DecidableEq

/-- The events of established.rs (enum Event).  Substream identifiers are
exposed as plain Nat; user tags as Nat. -/
inductive Event where
  | endOfData
  | requestIn (id : Nat) (protocol : Proto) (request : List Byte)
  | response (id : Nat) (userData : Nat) (response : RequestOutcome)
  | notificationsInOpen (id : Nat) (protocol : Proto) (handshake : List Byte)
  | notificationsOutAccept (id : Nat) (userData : Nat) (remoteHandshake : List Byte)
  | notificationsOutReject (id : Nat) (userData : Nat)
  deriving Repr, DecidableEq

/-- The substream identifier an event carries, when it has one. -/
def Event.id? : Event → Option Nat
  | .endOfData => none
  | .requestIn i _ _ => some i
  | .response i _ _ => some i
  | .notificationsInOpen i _ _ => some i
  | .notificationsOutAccept i _ _ => some i
  | .notificationsOutReject i _ => some i

/-- The fatal connection errors of established.rs (enum Error). -/
inductive Error where
  | noise
  | yamux
  deriving Repr, DecidableEq

/-- The result structure of Established::read_write (struct ReadWrite). -/
structure ReadWrite where
  connection : Established
  readBytes : Nat
  writtenBytes : Nat
  wakeUpAfter : Option Nat
  event : Option Event
  deriving Repr, DecidableEq

/-- The possible outcomes of one read_write call: a normal result, a fatal
connection error, or a hit of one of the source's todo or unreachable
sinks (a Rust panic). -/
inductive Outcome where
  | ok (r : ReadWrite)
  | fail (e : Error)
  | aborts
  deriving Repr, DecidableEq

/-- The minimum of a list of timestamps (the engine recomputes next_timeout
as the minimum remaining deadline). -/
def listMin : List Nat → Option Nat
  | [] => none
  | x :: xs =>
    match listMin xs with
    | none => some x
    | some m => some (if x ≤ m then x else m)

/-- The predicate of the update_now scan: a substream whose deadline has
passed (state RequestOutNegotiating or RequestOut with timeout at most
now). -/
def expiredPred (now : Nat) (p : Nat × Entry) : Bool :=
  match p.2.state.requestTimeout with
  | some t => decide (t ≤ now)
  | none => false

/-- The deadlines of all deadline-bearing substreams (states
RequestOutNegotiating and RequestOut) of the engine. -/
def bearingTimeouts (e : Established) : List Nat :=
  e.yamux.substreams.filterMap (fun p => p.2.state.requestTimeout)

/-- Established::update_now: if the cached next_timeout has passed, find
the first substream whose deadline has passed, reset it and synthesize the
timeout event, then recompute next_timeout as the minimum remaining
deadline. -/
def Established.updateNow (e : Established) (now : Nat) : Established × Option Event :=
  if (match e.nextTimeout with | none => true | some t => decide (now < t)) then (e, none)
  else
    let found := e.yamux.substreams.find? (expiredPred now)
    let y1 :=
      match found with
      | some (i, _) => e.yamux.remove i
      | none => e.yamux
    let ev :=
      match found with
      | some (i, en) =>
        match en.state with
        | .requestOutNegotiating _ _ _ ud => some (.response i ud (.err .timeout))
        | .requestOut _ ud _ => some (.response i ud (.err .timeout))
        | _ => none
      | none => none
    let nt := listMin (y1.substreams.filterMap (fun p => p.2.state.requestTimeout))
    ({ e with yamux := y1, nextTimeout := nt }, ev)

/-- The byte-by-byte loop of the PingIn branch of read_write: push each
byte into the 32-byte payload buffer; whenever the buffer fills, enqueue
its 32 bytes on the substream's write queue and clear it. -/
def pingLoop : List Byte → List Byte → List (List Byte) → List Byte × List (List Byte)
  | payload, [], q => (payload, q)
  | payload, b :: rest, q =>
    if (payload ++ [b]).length = 32 then pingLoop [] rest (q ++ [payload ++ [b]])
    else pingLoop (payload ++ [b]) rest q

/-- The result of the per-substream dispatch loop of read_write: the loop
either runs to completion (with the substream's final entry, or none when
the substream was reset), or requires an immediate event return, or hits a
todo or unreachable sink. -/
inductive DispatchOut where
  | done (entry : Option Entry)
  | ev (entry : Option Entry) (event : Event)
  | aborts
  deriving Repr, DecidableEq

/-- The per-substream dispatch loop of read_write (the while loop over the
data of a DataFrame): repeatedly move the state out, match on it, write
pending output onto the substream's write queue, and put the next state
back, until the data is exhausted or an event must be returned.  The fuel
argument dominates the number of iterations; every recursive step consumes
at least one byte of data, so data.length + 1 fuel is always enough. -/
def dispatch : Nat → Established → Nat → Entry → List Byte → DispatchOut
  | _, _, _, en, [] => .done (some en)
  | 0, _, _, en, _ => .done (some en)
  | fuel + 1, e, sid, en, data =>
    match en.state with
    | .poisoned => .aborts
    | .inboundNegotiating nego =>
      match nego.readWriteVec data with
      | .ok (.inProgress n, read, out) =>
        dispatch fuel e sid
          { en with state := .inboundNegotiating n, writeQueue := en.writeQueue ++ [out] }
          (data.drop read)
      | .ok (.success protocol, numRead, out) =>
        let st :=
          if protocol = e.pingProtocol then Substream.pingIn []
          else if e.inRequestProtocols.any (fun p => p = protocol) then
            Substream.requestInRecv (Framed.new (10 * 1024 * 1024)) protocol
          else
            Substream.notificationsInHandshake (Framed.new (10 * 1024 * 1024)) protocol
        dispatch fuel e sid
          { en with state := st, writeQueue := en.writeQueue ++ [out] }
          (data.drop numRead)
      | .ok (.notAvailable, numRead, out) =>
        dispatch fuel e sid
          { en with state := .negotiationFailed, writeQueue := en.writeQueue ++ [out],
                    closed := true }
          (data.drop numRead)
      | .error _ => .done none
    | .negotiationFailed =>
      dispatch fuel e sid { en with state := .negotiationFailed } (data.drop data.length)
    | .notificationsOutNegotiating timeout nego handshake =>
      match nego.readWriteVec data with
      | .ok (.inProgress n, read, out) =>
        dispatch fuel e sid
          { en with state := .notificationsOutNegotiating timeout n handshake,
                    writeQueue := en.writeQueue ++ [out] }
          (data.drop read)
      | .ok (.success _, numRead, out) =>
        dispatch fuel e sid
          { en with state := .notificationsOutHandshakeRecv (Framed.new (10 * 1024 * 1024)),
                    writeQueue := en.writeQueue ++ [out, lebEncode handshake.length, handshake] }
          (data.drop numRead)
      | .ok (.notAvailable, _, _) => .aborts
      | .error _ => .aborts
    | .notificationsOutHandshakeRecv handshake =>
      match handshake.injectData data with
      | .error _ => .aborts
      | .ok (numRead, h1) =>
        match h1.takeFrame with
        | (some _, _) => .aborts
        | (none, h2) =>
          dispatch fuel e sid
            { en with state := .notificationsOutHandshakeRecv h2 }
            (data.drop numRead)
    | .requestOutNegotiating timeout nego request userData =>
      match nego.readWriteVec data with
      | .ok (.inProgress n, read, out) =>
        dispatch fuel e sid
          { en with state := .requestOutNegotiating timeout n request userData,
                    writeQueue := en.writeQueue ++ [out] }
          (data.drop read)
      | .ok (.success _, numRead, out) =>
        dispatch fuel e sid
          { en with state := .requestOut timeout userData (Framed.new (10 * 1024 * 1024)),
                    writeQueue := en.writeQueue ++ [out, lebEncode request.length, request],
                    closed := true }
          (data.drop numRead)
      | .ok (.notAvailable, _, _) =>
        .ev none (.response sid userData (.err .protocolNotAvailable))
      | .error _ =>
        .ev none (.response sid userData (.err .negotiationError))
    | .requestOut timeout userData response =>
      match response.injectData data with
      | .error _ => .ev none (.response sid userData (.err .responseLebError))
      | .ok (numRead, r1) =>
        match r1.takeFrame with
        | (some frame, _) =>
          .ev (some { en with state := .negotiationFailed })
            (.response sid userData (.ok frame))
        | (none, r2) =>
          dispatch fuel e sid
            { en with state := .requestOut timeout userData r2 }
            (data.drop numRead)
    | .requestInRecv request protocol =>
      dispatch fuel e sid
        { en with state := .requestInRecv request protocol }
        (data.drop data.length)
    | .notificationsInHandshake handshake protocol =>
      match handshake.injectData data with
      | .error _ => .aborts
      | .ok (numRead, h1) =>
        match h1.takeFrame with
        | (some frame, _) =>
          .ev (some { en with state := .notificationsInWait })
            (.notificationsInOpen sid protocol frame)
        | (none, h2) =>
          dispatch fuel e sid
            { en with state := .notificationsInHandshake h2 protocol }
            (data.drop numRead)
    | .notificationsInWait =>
      dispatch fuel e sid { en with state := .notificationsInWait } (data.drop data.length)
    | .pingIn payload =>
      let r := pingLoop payload data en.writeQueue
      .done (some { en with state := .pingIn r.1, writeQueue := r.2 })
    | .notificationsOut => .aborts
    | .requestInSend => .aborts

/-- The result of one iteration of the decode loop of read_write: break
out of the loop, continue with an updated engine, or return from
read_write immediately. -/
inductive StepOut where
  | brk (e : Established) (totalRead : Nat)
  | again (e : Established) (inc : Option (List Frame)) (totalRead : Nat)
  | ret (o : Outcome)

/-- The dispatch on the multiplexer's parse detail inside one decode-loop
iteration: break when nothing was parsed, accept an incoming substream,
handle a stream reset, or run the per-substream dispatch on a data frame.
The engine passed here already carries the multiplexer state returned by
incoming_data. -/
def handleDetail (e2 : Established) (inc1 : Option (List Frame)) (tr1 bytesRead : Nat) :
    Option Detail → StepOut
  | none =>
    if bytesRead = 0 then .brk e2 tr1
    else .again { e2 with encryption := e2.encryption.consumeInboundData bytesRead } inc1 tr1
  | some .incomingSubstream =>
    let nego : Nego :=
      { role := .listener (e2.inRequestProtocols ++ e2.inNotificationsProtocols ++ [e2.pingProtocol]) }
    let y2 := e2.yamux.acceptPending (.inboundNegotiating nego)
    .again { e2 with yamux := y2,
                     encryption := e2.encryption.consumeInboundData bytesRead } inc1 tr1
  | some (.streamReset sid st) =>
    match st with
    | .poisoned => .ret .aborts
    | .inboundNegotiating _ => .again e2 inc1 tr1
    | .negotiationFailed => .again e2 inc1 tr1
    | .requestOutNegotiating _ _ _ ud =>
      .ret (.ok { connection := e2, readBytes := tr1, writtenBytes := 0,
                  wakeUpAfter := e2.nextTimeout,
                  event := some (.response sid ud (.err .substreamReset)) })
    | .requestOut _ ud _ =>
      .ret (.ok { connection := e2, readBytes := tr1, writtenBytes := 0,
                  wakeUpAfter := e2.nextTimeout,
                  event := some (.response sid ud (.err .substreamReset)) })
    | .requestInRecv _ _ => .again e2 inc1 tr1
    | .notificationsInHandshake _ _ => .again e2 inc1 tr1
    | .notificationsInWait => .again e2 inc1 tr1
    | .pingIn _ => .again e2 inc1 tr1
    | .notificationsOutNegotiating _ _ _ => .ret .aborts
    | .notificationsOutHandshakeRecv _ => .ret .aborts
    | .notificationsOut => .ret .aborts
    | .requestInSend => .ret .aborts
  | some (.dataFrame sid payload) =>
    match e2.yamux.lookup sid with
    | none => .ret .aborts
    | some en =>
      match dispatch (payload.length + 1) e2 sid en payload with
      | .aborts => .ret .aborts
      | .done entry =>
        let y3 :=
          match entry with
          | some en1 => e2.yamux.setEntry sid en1
          | none => e2.yamux.remove sid
        .again { e2 with yamux := y3,
                         encryption := e2.encryption.consumeInboundData bytesRead } inc1 tr1
      | .ev entry event =>
        let y3 :=
          match entry with
          | some en1 => e2.yamux.setEntry sid en1
          | none => e2.yamux.remove sid
        let e3 := { e2 with yamux := y3 }
        .ret (.ok { connection := e3, readBytes := tr1, writtenBytes := 0,
                    wakeUpAfter := e3.nextTimeout, event := some event })

/-- One iteration of the decode loop of read_write: transfer the incoming
data into the cipher, ask the multiplexer to parse the decoded buffer, and
dispatch on the parse detail (break, incoming substream, stream reset, or
data frame followed by per-substream dispatch). -/
def decodeStep (e : Established) (inc : Option (List Frame)) (totalRead : Nat) : StepOut :=
  let inj :=
    match inc with
    | some frames =>
      let r := e.encryption.injectInboundData frames
      ({ e with encryption := r.1 }, (some ([] : List Frame)), totalRead + r.2)
    | none => (e, none, totalRead)
  let e1 := inj.1
  let yd := e1.yamux.incomingData e1.encryption.decoded
  handleDetail { e1 with yamux := yd.1 } inj.2.1 inj.2.2 yd.2.1 yd.2.2

/-- The result of the decode loop: either an immediate return from
read_write, or fall-through to the encrypt-out loop. -/
inductive DecodeOut where
  | ret (o : Outcome)
  | through (e : Established) (totalRead : Nat)

/-- The decode loop of read_write, iterated on fuel.  Every iteration
either consumes decoded data or retires a substream, so the fuel computed
by decodeFuel below is always sufficient. -/
def decodeLoop : Nat → Established → Option (List Frame) → Nat → DecodeOut
  | 0, e, _, tr => .through e tr
  | fuel + 1, e, inc, tr =>
    match decodeStep e inc tr with
    | .brk e1 tr1 => .through e1 tr1
    | .ret o => .ret o
    | .again e1 inc1 tr1 => decodeLoop fuel e1 inc1 tr1

/-- The number of incoming units still pending. -/
def incLen : Option (List Frame) → Nat
  | none => 0
  | some l => l.length

/-- Sufficient fuel for the decode loop: each iteration either consumes a
frame of the decoded buffer (counted twice, since injection moves incoming
frames into the buffer first) or removes a substream. -/
def decodeFuel (e : Established) (inc : Option (List Frame)) : Nat :=
  2 * (e.encryption.decoded.length + incLen inc) + e.yamux.substreams.length + 2

/-- The encrypt-out loop of read_write: ask the cipher how many bytes fit
in the remaining output capacity, extract at most that many bytes from the
multiplexer, encrypt them into the two output regions (filling region 0
first), and swap the regions when region 0 fills up.  With the identity
cipher the size conversion is the identity and everything extracted is
written. -/
def writeLoop : Nat → Established → Nat → Nat → Nat → Established × Nat
  | 0, e, _, _, total => (e, total)
  | fuel + 1, e, cap0, cap1, total =>
    let bytesOut := cap0 + cap1
    if bytesOut = 0 then (e, total)
    else
      let r := e.yamux.extractOut bytesOut
      if r.1.length = 0 then ({ e with yamux := r.2 }, total)
      else
        let written := r.1.length
        let cap0next := cap0 - Nat.min written cap0
        let cap1next := cap1 - (written - cap0)
        if cap0next = 0 then
          writeLoop fuel { e with yamux := r.2 } cap1next cap0next (total + written)
        else
          writeLoop fuel { e with yamux := r.2 } cap0next cap1next (total + written)

/-- Established::read_write: first expire timeouts, then run the decode
loop, then the encrypt-out loop, and return the outcome together with the
cached next timeout as wake_up_after. -/
def Established.readWrite (e : Established) (now : Nat) (inc : Option (List Frame))
    (cap0 cap1 : Nat) : Outcome :=
  match e.updateNow now with
  | (e1, some event) =>
    .ok { connection := e1, readBytes := 0, writtenBytes := 0,
          wakeUpAfter := e1.nextTimeout, event := some event }
  | (e1, none) =>
    match decodeLoop (decodeFuel e1 inc) e1 inc 0 with
    | .ret o => o
    | .through e2 tr =>
      let w := writeLoop (cap0 + cap1 + 1) e2 cap0 cap1 0
      .ok { connection := w.1, readBytes := tr, writtenBytes := w.2,
            wakeUpAfter := w.1.nextTimeout, event := none }

/-- Established::add_request: construct a dialer negotiation for the
protocol, install a deadline of now plus twenty seconds (lowering
next_timeout when necessary, never raising it), open a substream in state
RequestOutNegotiating, and write the initial negotiation output onto its
write queue. -/
def Established.addRequest (e : Established) (now : Nat) (protocol : Proto)
    (request : List Byte) (userData : Nat) : Established × Nat :=
  let negotiation : Nego := { role := .dialer protocol }
  let initial :=
    match negotiation.readWriteVec [] with
    | .ok (.inProgress n, _, out) => (n, out)
    | _ => (negotiation, [])
  let timeout := now + 20
  let nt :=
    if (match e.nextTimeout with | none => true | some t => decide (timeout < t)) then
      some timeout
    else e.nextTimeout
  let o := e.yamux.openSubstream
    (.requestOutNegotiating timeout initial.1 request userData)
  let y1 := o.1.setEntry o.2
    { state := .requestOutNegotiating timeout initial.1 request userData,
      writeQueue := [initial.2], closed := false }
  ({ e with yamux := y1, nextTimeout := nt }, o.2)

/-- Established::open_notifications_substream: same shape as add_request,
with the initial state NotificationsOutNegotiating. -/
def Established.openNotificationsSubstream (e : Established) (now : Nat)
    (protocol : Proto) (handshake : List Byte) : Established × Nat :=
  let negotiation : Nego := { role := .dialer protocol }
  let initial :=
    match negotiation.readWriteVec [] with
    | .ok (.inProgress n, _, out) => (n, out)
    | _ => (negotiation, [])
  let timeout := now + 20
  let nt :=
    if (match e.nextTimeout with | none => true | some t => decide (timeout < t)) then
      some timeout
    else e.nextTimeout
  let o := e.yamux.openSubstream
    (.notificationsOutNegotiating timeout initial.1 handshake)
  let y1 := o.1.setEntry o.2
    { state := .notificationsOutNegotiating timeout initial.1 handshake,
      writeQueue := [initial.2], closed := false }
  ({ e with yamux := y1, nextTimeout := nt }, o.2)

/-- The configuration used to turn a connection prototype into an engine
(struct Config; the randomness seed parameterizes only the multiplexer
model, which ignores it). -/
structure Config where
  inRequestProtocols : List Proto
  inNotificationsProtocols : List Proto
  pingProtocol : Proto
  randomnessSeed : Nat × Nat

/-- ConnectionPrototype::into_connection: the only constructor of an
engine: a fresh multiplexer, no cached timeout, and the configured
protocol lists. -/
def intoConnection (cfg : Config) : Established :=
  { encryption := { decoded := [] },
    yamux := { substreams := [], nextId := 0 },
    nextTimeout := none,
    inRequestProtocols := cfg.inRequestProtocols,
    inNotificationsProtocols := cfg.inNotificationsProtocols,
    pingProtocol := cfg.pingProtocol }

/-! ## Helper definitions for the statements -/

/-- The event of an outcome, when the outcome is a normal result. -/
def outcomeEvent : Outcome → Option Event
  | .ok r => r.event
  | _ => none

/-- The timeout-cache invariant the engine actually maintains: the cached
next_timeout, when present, is at most every deadline of a
deadline-bearing substream (it may be stale early); when absent, no
deadline-bearing substream exists. -/
def TimeoutInv (e : Established) : Prop :=
  (e.nextTimeout = none → bearingTimeouts e = []) ∧
  (∀ t, e.nextTimeout = some t → ∀ d ∈ bearingTimeouts e, t ≤ d)

/-- A substream identifier that is dead: below the allocation counter and
absent from the multiplexer's table.  Identifiers are never reused, so a
dead identifier never comes back. -/
def deadId (e : Established) (i : Nat) : Prop :=
  i < e.yamux.nextId ∧ e.yamux.lookup i = none

/-- A substream identifier that is retired: dead, or still in the table in
state NegotiationFailed (the sink state after a successful response). -/
def quietId (e : Established) (i : Nat) : Prop :=
  i < e.yamux.nextId ∧
  (e.yamux.lookup i = none ∨
    ∃ q c, e.yamux.lookup i = some { state := .negotiationFailed, writeQueue := q, closed := c })

/-- Well-formedness of the multiplexer's identifier table: all keys are
below the allocation counter and are pairwise distinct. -/
def WfIds (e : Established) : Prop :=
  (∀ p ∈ e.yamux.substreams, p.1 < e.yamux.nextId) ∧
  (e.yamux.substreams.map Prod.fst).Nodup

/-- The probe engine for the stream-reset analysis: a single substream with
identifier 0 in the given state, a reset frame for it already decoded, and
no other input. -/
def resetProbe (reqs notifs : List Proto) (ping : Proto) (st : Substream) : Outcome :=
  Established.readWrite
    { encryption := { decoded := [Frame.resetFrame 0] },
      yamux := { substreams := [(0, { state := st, writeQueue := [], closed := false })], nextId := 1 },
      nextTimeout := none,
      inRequestProtocols := reqs, inNotificationsProtocols := notifs, pingProtocol := ping }
    0 none 0 0

/-- The consecutive 32-byte blocks of a byte sequence, in order. -/
def chunks32 (bs : List Byte) : List (List Byte) :=
  if _h : 32 ≤ bs.length then bs.take 32 :: chunks32 (bs.drop 32) else []
termination_by bs.length
decreasing_by simp [List.length_drop]; omega

/-- Feeding a sequence of data slices through the PingIn loop, starting
from the given payload buffer and write queue. -/
def pingRun (slices : List (List Byte)) (p : List Byte) (q : List (List Byte)) :
    List Byte × List (List Byte) :=
  slices.foldl (fun s d => pingLoop s.1 d s.2) (p, q)

/-- The configuration used by the concrete witnesses below. -/
def cfgW : Config :=
  { inRequestProtocols := ["r"], inNotificationsProtocols := ["n"],
    pingProtocol := "p", randomnessSeed := (0, 0) }

/-- The outcome of the reset probe when the reset is dropped silently: the
call continues, consumes the frame, and ends with no event. -/
def resetSilentOutcome (reqs notifs : List Proto) (ping : Proto) : Outcome :=
  .ok { connection :=
          { encryption := { decoded := [] }, yamux := { substreams := [], nextId := 1 },
            nextTimeout := none, inRequestProtocols := reqs,
            inNotificationsProtocols := notifs, pingProtocol := ping },
        readBytes := 0, writtenBytes := 0, wakeUpAfter := none, event := none }

/-- The outcome of the reset probe when the reset state was RequestOut or
RequestOutNegotiating: an immediate return with the SubstreamReset
response event. -/
def resetEventOutcome (reqs notifs : List Proto) (ping : Proto) (ud : Nat) : Outcome :=
  .ok { connection :=
          { encryption := { decoded := [Frame.resetFrame 0] },
            yamux := { substreams := [], nextId := 1 },
            nextTimeout := none, inRequestProtocols := reqs,
            inNotificationsProtocols := notifs, pingProtocol := ping },
        readBytes := 0, writtenBytes := 0, wakeUpAfter := none,
        event := some (.response 0 ud (.err .substreamReset)) }

/-- The entry a dispatch result carries, when it carries one. -/
def DispatchOut.entry? : DispatchOut → Option Entry
  | .done en => en
  | .ev en _ => en
  | .aborts => none

/-- The event a dispatch result carries, when it carries one. -/
def DispatchOut.event? : DispatchOut → Option Event
  | .ev _ event => some event
  | .done _ => none
  | .aborts => none

/-- The deadlines of the deadline-bearing substreams of a multiplexer
table. -/
def Yamux.bearing (y : Yamux) : List Nat :=
  y.substreams.filterMap (fun p => p.2.state.requestTimeout)

/-! ## Lemmas about the modelled multiplexer operations -/

theorem bearingTimeouts_eq (e : Established) : bearingTimeouts e = e.yamux.bearing := rfl

theorem lookup_mem (y : Yamux) (i : Nat) (en : Entry) (h : y.lookup i = some en) :
    (i, en) ∈ y.substreams := by
  unfold Yamux.lookup at h
  rcases hf : y.substreams.find? (fun p => p.1 = i) with _ | p
  · rw [hf] at h; cases h
  · rw [hf] at h
    have hp2 : p.2 = en := by cases h; rfl
    have hmem := List.mem_of_find?_eq_some hf
    have hpred := List.find?_some hf
    have hp1 : p.1 = i := by simpa using hpred
    have : p = (i, en) := by
      cases p
      simp only [Prod.mk.injEq]
      exact ⟨hp1, hp2⟩
    rw [← this]
    exact hmem

theorem mem_bearing (y : Yamux) (i : Nat) (en : Entry) (t : Nat)
    (h : (i, en) ∈ y.substreams) (ht : en.state.requestTimeout = some t) :
    t ∈ y.bearing :=
  List.mem_filterMap.mpr ⟨(i, en), h, ht⟩

theorem bearing_mem_entry (y : Yamux) (t : Nat) (h : t ∈ y.bearing) :
    ∃ p ∈ y.substreams, p.2.state.requestTimeout = some t := by
  obtain ⟨p, hp, hpt⟩ := List.mem_filterMap.mp h
  exact ⟨p, hp, hpt⟩

theorem bearing_remove (y : Yamux) (i : Nat) (t : Nat) (h : t ∈ (y.remove i).bearing) :
    t ∈ y.bearing := by
  obtain ⟨p, hp, hpt⟩ := List.mem_filterMap.mp h
  exact List.mem_filterMap.mpr ⟨p, List.mem_of_mem_filter hp, hpt⟩

theorem bearing_setEntry (y : Yamux) (i : Nat) (en1 : Entry) (t : Nat)
    (h : t ∈ (y.setEntry i en1).bearing) :
    t ∈ y.bearing ∨ en1.state.requestTimeout = some t := by
  obtain ⟨p, hp, hpt⟩ := List.mem_filterMap.mp h
  obtain ⟨p0, hp0, hmap⟩ := List.mem_map.mp hp
  by_cases hpi : p0.1 = i
  · simp only [hpi, if_true] at hmap
    right
    rw [← hmap] at hpt
    exact hpt
  · simp only [hpi, if_false] at hmap
    left
    exact List.mem_filterMap.mpr ⟨p0, hp0, by rw [hmap]; exact hpt⟩

theorem bearing_accept (y : Yamux) (st : Substream) (t : Nat)
    (h : t ∈ (y.acceptPending st).bearing) :
    t ∈ y.bearing ∨ st.requestTimeout = some t := by
  obtain ⟨p, hp, hpt⟩ := List.mem_filterMap.mp h
  rcases List.mem_append.mp hp with h1 | h2
  · exact Or.inl (List.mem_filterMap.mpr ⟨p, h1, hpt⟩)
  · right
    have : p = (y.nextId, { state := st, writeQueue := [], closed := false }) := by
      simpa using h2
    rw [this] at hpt
    exact hpt

/-! ## Lemmas about the per-substream dispatch loop -/

theorem dispatch_negotiationFailed (fuel : Nat) (e : Established) (sid : Nat)
    (q : List (List Byte)) (c : Bool) (data : List Byte) :
    dispatch fuel e sid { state := .negotiationFailed, writeQueue := q, closed := c } data =
      .done (some { state := .negotiationFailed, writeQueue := q, closed := c }) := by
  cases fuel with
  | zero => cases data <;> rfl
  | succ n => cases data with
    | nil => rfl
    | cons b rest =>
      show dispatch n e sid _ ((b :: rest).drop (b :: rest).length) = _
      rw [List.drop_length]
      cases n <;> rfl

theorem dispatch_timeout (fuel : Nat) (e : Established) (sid : Nat) (en : Entry)
    (data : List Byte) (en1 : Entry)
    (h : (dispatch fuel e sid en data).entry? = some en1) :
    en1.state.requestTimeout = none ∨ en1.state.requestTimeout = en.state.requestTimeout := by
  induction fuel generalizing en data en1 with
  | zero =>
    cases data <;> simp only [dispatch, DispatchOut.entry?, Option.some.injEq] at h <;>
      (rw [← h]; exact Or.inr rfl)
  | succ n ih =>
    obtain ⟨st, q, c⟩ := en
    cases data with
    | nil =>
      simp only [dispatch, DispatchOut.entry?, Option.some.injEq] at h
      rw [← h]
      exact Or.inr rfl
    | cons b rest =>
      cases st
      all_goals simp only [dispatch] at h
      all_goals iterate 4 (all_goals try split at h)
      all_goals simp only [DispatchOut.entry?, Option.some.injEq] at h
      all_goals try exact Option.noConfusion h
      all_goals try (rw [← h]; first | exact Or.inl rfl | exact Or.inr rfl)
      all_goals try (rcases ih _ _ _ h with h1 | h2)
      all_goals try exact Or.inl h1
      all_goals first
        | exact Or.inl (h2.trans rfl)
        | exact Or.inr (h2.trans rfl)

theorem dispatch_event_id (fuel : Nat) (e : Established) (sid : Nat) (en : Entry)
    (data : List Byte) (ev : Event)
    (h : (dispatch fuel e sid en data).event? = some ev) : ev.id? = some sid := by
  induction fuel generalizing en data ev with
  | zero => cases data <;> (simp only [dispatch, DispatchOut.event?] at h; exact Option.noConfusion h)
  | succ n ih =>
    obtain ⟨st, q, c⟩ := en
    cases data with
    | nil =>
      simp only [dispatch, DispatchOut.event?] at h
      exact Option.noConfusion h
    | cons b rest =>
      cases st
      all_goals simp only [dispatch] at h
      all_goals iterate 4 (all_goals try split at h)
      all_goals simp only [DispatchOut.event?, Option.some.injEq] at h
      all_goals try exact Option.noConfusion h
      all_goals try (rw [← h]; rfl)
      all_goals exact ih _ _ _ h

theorem dispatch_response_ok (fuel : Nat) (e : Established) (sid : Nat) (en : Entry)
    (data : List Byte) (r : DispatchOut) (hr : dispatch fuel e sid en data = r)
    (j ud : Nat) (v : List Byte)
    (h : r.event? = some (.response j ud (.ok v))) :
    ∃ q c, r.entry? =
      some { state := .negotiationFailed, writeQueue := q, closed := c } := by
  induction fuel generalizing en data r with
  | zero =>
    cases data <;>
      (rw [← hr] at h; simp only [dispatch, DispatchOut.event?] at h; exact Option.noConfusion h)
  | succ n ih =>
    obtain ⟨st, q, c⟩ := en
    cases data with
    | nil =>
      rw [← hr] at h
      simp only [dispatch, DispatchOut.event?] at h
      exact Option.noConfusion h
    | cons b rest =>
      cases st
      all_goals simp only [dispatch] at hr
      all_goals iterate 4 (all_goals try split at hr)
      all_goals first
        | exact ih _ _ _ hr h
        | (rw [← hr] at h ⊢
           simp only [DispatchOut.event?, DispatchOut.entry?, Option.some.injEq] at h ⊢
           first
             | exact Option.noConfusion h
             | exact ⟨q, c, rfl⟩
             | simp at h)

/-! ## Lemmas about outbound extraction and the encrypt-out loop -/

theorem takeFromQueue_length_le (q : List (List Byte)) (m : Nat) :
    (takeFromQueue q m).1.length ≤ m := by
  induction q generalizing m with
  | nil => simp [takeFromQueue]
  | cons b rest ih =>
    rw [takeFromQueue]
    by_cases h0 : m = 0
    · simp [h0]
    · rw [if_neg h0]
      by_cases hb : b.length ≤ m
      · rw [if_pos hb]
        have := ih (m - b.length)
        simp only [List.length_append]
        omega
      · rw [if_neg hb]
        simp only [List.length_take]
        omega

theorem extractFromSubs_length_le (subs : List (Nat × Entry)) (m : Nat) :
    (extractFromSubs subs m).1.length ≤ m := by
  induction subs generalizing m with
  | nil => simp [extractFromSubs]
  | cons p rest ih =>
    obtain ⟨i, en⟩ := p
    rw [extractFromSubs]
    have h1 := takeFromQueue_length_le en.writeQueue m
    have h2 := ih (m - (takeFromQueue en.writeQueue m).1.length)
    simp only [List.length_append]
    omega

theorem extractFromSubs_keys (subs : List (Nat × Entry)) (m : Nat) :
    (extractFromSubs subs m).2.map Prod.fst = subs.map Prod.fst := by
  induction subs generalizing m with
  | nil => simp [extractFromSubs]
  | cons p rest ih =>
    obtain ⟨i, en⟩ := p
    rw [extractFromSubs]
    simp only [List.map_cons]
    rw [ih]

theorem extractFromSubs_find_none (subs : List (Nat × Entry)) (m i : Nat)
    (h : subs.find? (fun p => p.1 = i) = none) :
    (extractFromSubs subs m).2.find? (fun p => p.1 = i) = none := by
  induction subs generalizing m with
  | nil => simp [extractFromSubs]
  | cons p rest ih =>
    obtain ⟨j, en⟩ := p
    rw [List.find?_cons] at h
    by_cases hji : (j : Nat) = i
    · simp [hji] at h
    · simp only [hji, decide_False] at h
      rw [extractFromSubs, List.find?_cons]
      simp only [hji, decide_False]
      exact ih _ h

theorem extractFromSubs_find_some (subs : List (Nat × Entry)) (m i : Nat) (en : Entry)
    (h : subs.find? (fun p => p.1 = i) = some (i, en)) :
    ∃ q', (extractFromSubs subs m).2.find? (fun p => p.1 = i) =
      some (i, { state := en.state, writeQueue := q', closed := en.closed }) := by
  induction subs generalizing m with
  | nil => simp [List.find?] at h
  | cons p rest ih =>
    obtain ⟨j, en0⟩ := p
    rw [List.find?_cons] at h
    by_cases hji : (j : Nat) = i
    · subst hji
      simp only [decide_True] at h
      rw [Option.some_inj] at h
      have hen : en0 = en := (Prod.mk.injEq _ _ _ _).mp h |>.2
      subst hen
      rw [extractFromSubs, List.find?_cons]
      simp only [decide_True]
      exact ⟨(takeFromQueue en0.writeQueue m).2, rfl⟩
    · simp only [hji, decide_False] at h
      rw [extractFromSubs, List.find?_cons]
      simp only [hji, decide_False]
      exact ih _ h

theorem extractFromSubs_bearing (subs : List (Nat × Entry)) (m : Nat) :
    (extractFromSubs subs m).2.filterMap (fun p => p.2.state.requestTimeout) =
      subs.filterMap (fun p => p.2.state.requestTimeout) := by
  induction subs generalizing m with
  | nil => simp [extractFromSubs]
  | cons p rest ih =>
    obtain ⟨i, en⟩ := p
    rw [extractFromSubs]
    simp only [List.filterMap_cons]
    rw [ih]

theorem takeFromQueue_empty_of_collect_nil (q : List (List Byte)) (m : Nat)
    (hm : m ≠ 0) (h : (takeFromQueue q m).1 = []) : (takeFromQueue q m).2 = [] := by
  induction q generalizing m with
  | nil => simp [takeFromQueue]
  | cons b rest ih =>
    rw [takeFromQueue] at h ⊢
    rw [if_neg hm] at h ⊢
    by_cases hb : b.length ≤ m
    · rw [if_pos hb] at h ⊢
      have h1 : b ++ (takeFromQueue rest (m - b.length)).1 = [] := h
      have hbnil : b = [] := (List.append_eq_nil.mp h1).1
      have hrest : (takeFromQueue rest (m - b.length)).1 = [] := (List.append_eq_nil.mp h1).2
      have hm2 : m - b.length ≠ 0 := by
        rw [hbnil]
        simpa using hm
      exact ih (m - b.length) hm2 hrest
    · rw [if_neg hb] at h ⊢
      exfalso
      have h1 : b.take m = [] := h
      have hlen : (b.take m).length = m := by
        simp [List.length_take]
        omega
      rw [h1] at hlen
      simp at hlen
      omega

theorem extractFromSubs_empty_of_collect_nil (subs : List (Nat × Entry)) (m : Nat)
    (hm : m ≠ 0) (h : (extractFromSubs subs m).1 = []) :
    ∀ p ∈ (extractFromSubs subs m).2, p.2.writeQueue = [] := by
  induction subs generalizing m with
  | nil => simp [extractFromSubs]
  | cons p rest ih =>
    obtain ⟨i, en⟩ := p
    have h1 : (takeFromQueue en.writeQueue m).1 ++
        (extractFromSubs rest (m - (takeFromQueue en.writeQueue m).1.length)).1 = [] := h
    have htq : (takeFromQueue en.writeQueue m).1 = [] := (List.append_eq_nil.mp h1).1
    have hrest : (extractFromSubs rest (m - (takeFromQueue en.writeQueue m).1.length)).1 = [] :=
      (List.append_eq_nil.mp h1).2
    have hm2 : m - (takeFromQueue en.writeQueue m).1.length ≠ 0 := by
      rw [htq]
      simpa using hm
    intro p hp
    have hp1 : p ∈ (i, { en with writeQueue := (takeFromQueue en.writeQueue m).2 }) ::
        (extractFromSubs rest (m - (takeFromQueue en.writeQueue m).1.length)).2 := hp
    rcases List.mem_cons.mp hp1 with he | h2
    · subst he
      exact takeFromQueue_empty_of_collect_nil en.writeQueue m hm htq
    · exact ih (m - (takeFromQueue en.writeQueue m).1.length) hm2 hrest p h2

theorem takeFromQueue_nil (m : Nat) : takeFromQueue [] m = ([], []) := by
  simp [takeFromQueue]

theorem extractFromSubs_all_empty (subs : List (Nat × Entry)) (m : Nat)
    (h : ∀ p ∈ subs, p.2.writeQueue = []) :
    (extractFromSubs subs m).1 = [] ∧
      ∀ p ∈ (extractFromSubs subs m).2, p.2.writeQueue = [] := by
  induction subs generalizing m with
  | nil => simp [extractFromSubs]
  | cons p rest ih =>
    obtain ⟨i, en⟩ := p
    have hq : en.writeQueue = [] := h (i, en) (List.mem_cons_self _ _)
    rw [extractFromSubs, hq, takeFromQueue_nil]
    have hrest := ih m (fun p hp => h p (List.mem_cons_of_mem _ hp))
    refine ⟨by simpa using hrest.1, ?_⟩
    intro p hp
    rcases List.mem_cons.mp hp with h1 | h2
    · subst h1; rfl
    · exact hrest.2 p h2

/-- One unrolled iteration of the encrypt-out loop, with the lets and the
region swap spelled out. -/
theorem writeLoop_succ (n : Nat) (e : Established) (c0 c1 t : Nat) :
    writeLoop (n + 1) e c0 c1 t =
      if c0 + c1 = 0 then (e, t)
      else if (e.yamux.extractOut (c0 + c1)).1.length = 0 then
        ({ e with yamux := (e.yamux.extractOut (c0 + c1)).2 }, t)
      else if c0 - Nat.min (e.yamux.extractOut (c0 + c1)).1.length c0 = 0 then
        writeLoop n { e with yamux := (e.yamux.extractOut (c0 + c1)).2 }
          (c1 - ((e.yamux.extractOut (c0 + c1)).1.length - c0))
          (c0 - Nat.min (e.yamux.extractOut (c0 + c1)).1.length c0)
          (t + (e.yamux.extractOut (c0 + c1)).1.length)
      else
        writeLoop n { e with yamux := (e.yamux.extractOut (c0 + c1)).2 }
          (c0 - Nat.min (e.yamux.extractOut (c0 + c1)).1.length c0)
          (c1 - ((e.yamux.extractOut (c0 + c1)).1.length - c0))
          (t + (e.yamux.extractOut (c0 + c1)).1.length) := by
  simp only [writeLoop]

theorem writeLoop_fields (fuel : Nat) (e : Established) (c0 c1 t : Nat) :
    (writeLoop fuel e c0 c1 t).1.encryption = e.encryption ∧
    (writeLoop fuel e c0 c1 t).1.nextTimeout = e.nextTimeout ∧
    (writeLoop fuel e c0 c1 t).1.inRequestProtocols = e.inRequestProtocols ∧
    (writeLoop fuel e c0 c1 t).1.inNotificationsProtocols = e.inNotificationsProtocols ∧
    (writeLoop fuel e c0 c1 t).1.pingProtocol = e.pingProtocol := by
  induction fuel generalizing e c0 c1 t with
  | zero => exact ⟨rfl, rfl, rfl, rfl, rfl⟩
  | succ n ih =>
    rw [writeLoop_succ]
    by_cases h0 : c0 + c1 = 0
    · rw [if_pos h0]; exact ⟨rfl, rfl, rfl, rfl, rfl⟩
    · rw [if_neg h0]
      by_cases he : (e.yamux.extractOut (c0 + c1)).1.length = 0
      · rw [if_pos he]; exact ⟨rfl, rfl, rfl, rfl, rfl⟩
      · rw [if_neg he]
        by_cases hsw : c0 - Nat.min (e.yamux.extractOut (c0 + c1)).1.length c0 = 0
        · rw [if_pos hsw]; exact ih _ _ _ _
        · rw [if_neg hsw]; exact ih _ _ _ _

theorem writeLoop_written_le (fuel : Nat) (e : Established) (c0 c1 t : Nat) :
    (writeLoop fuel e c0 c1 t).2 ≤ t + c0 + c1 := by
  induction fuel generalizing e c0 c1 t with
  | zero => simp only [writeLoop]; omega
  | succ n ih =>
    rw [writeLoop_succ]
    by_cases h0 : c0 + c1 = 0
    · rw [if_pos h0]; omega
    · rw [if_neg h0]
      by_cases he : (e.yamux.extractOut (c0 + c1)).1.length = 0
      · rw [if_pos he]; omega
      · rw [if_neg he]
        have hle : (e.yamux.extractOut (c0 + c1)).1.length ≤ c0 + c1 :=
          extractFromSubs_length_le e.yamux.substreams (c0 + c1)
        by_cases hsw : c0 - Nat.min (e.yamux.extractOut (c0 + c1)).1.length c0 = 0
        · rw [if_pos hsw]
          have := ih { e with yamux := (e.yamux.extractOut (c0 + c1)).2 }
            (c1 - ((e.yamux.extractOut (c0 + c1)).1.length - c0))
            (c0 - Nat.min (e.yamux.extractOut (c0 + c1)).1.length c0)
            (t + (e.yamux.extractOut (c0 + c1)).1.length)
          rcases Nat.le_total (e.yamux.extractOut (c0 + c1)).1.length c0 with hc | hc <;>
            simp [Nat.min_eq_left, Nat.min_eq_right, hc] at this hsw ⊢ <;> omega
        · rw [if_neg hsw]
          have := ih { e with yamux := (e.yamux.extractOut (c0 + c1)).2 }
            (c0 - Nat.min (e.yamux.extractOut (c0 + c1)).1.length c0)
            (c1 - ((e.yamux.extractOut (c0 + c1)).1.length - c0))
            (t + (e.yamux.extractOut (c0 + c1)).1.length)
          rcases Nat.le_total (e.yamux.extractOut (c0 + c1)).1.length c0 with hc | hc <;>
            simp [Nat.min_eq_left, Nat.min_eq_right, hc] at this hsw ⊢ <;> omega

theorem writeLoop_written_ge (fuel : Nat) (e : Established) (c0 c1 t : Nat) :
    t ≤ (writeLoop fuel e c0 c1 t).2 := by
  induction fuel generalizing e c0 c1 t with
  | zero => exact Nat.le_refl t
  | succ n ih =>
    rw [writeLoop_succ]
    by_cases h0 : c0 + c1 = 0
    · rw [if_pos h0]
    · rw [if_neg h0]
      by_cases he : (e.yamux.extractOut (c0 + c1)).1.length = 0
      · rw [if_pos he]
      · rw [if_neg he]
        by_cases hsw : c0 - Nat.min (e.yamux.extractOut (c0 + c1)).1.length c0 = 0
        · rw [if_pos hsw]
          have := ih { e with yamux := (e.yamux.extractOut (c0 + c1)).2 }
            (c1 - ((e.yamux.extractOut (c0 + c1)).1.length - c0))
            (c0 - Nat.min (e.yamux.extractOut (c0 + c1)).1.length c0)
            (t + (e.yamux.extractOut (c0 + c1)).1.length)
          omega
        · rw [if_neg hsw]
          have := ih { e with yamux := (e.yamux.extractOut (c0 + c1)).2 }
            (c0 - Nat.min (e.yamux.extractOut (c0 + c1)).1.length c0)
            (c1 - ((e.yamux.extractOut (c0 + c1)).1.length - c0))
            (t + (e.yamux.extractOut (c0 + c1)).1.length)
          omega

/-! ## Byte accounting of the decode loop -/

theorem decodeStep_read (e : Established) (inc : Option (List Frame)) (tr : Nat) :
    (∀ e1 tr1, decodeStep e inc tr = .brk e1 tr1 → tr1 = tr + incLen inc) ∧
    (∀ e1 inc1 tr1, decodeStep e inc tr = .again e1 inc1 tr1 →
      tr1 = tr + incLen inc ∧ incLen inc1 = 0) ∧
    (∀ r, decodeStep e inc tr = .ret (.ok r) →
      r.readBytes = tr + incLen inc ∧ r.writtenBytes = 0) := by
  have hmain : ∀ (e2 : Established) (inc1 : Option (List Frame)) (tr1 br : Nat)
      (d : Option Detail), incLen inc1 = 0 →
      (∀ e3 tr2, handleDetail e2 inc1 tr1 br d = .brk e3 tr2 → tr2 = tr1) ∧
      (∀ e3 inc2 tr2, handleDetail e2 inc1 tr1 br d = .again e3 inc2 tr2 →
        tr2 = tr1 ∧ incLen inc2 = 0) ∧
      (∀ r, handleDetail e2 inc1 tr1 br d = .ret (.ok r) →
        r.readBytes = tr1 ∧ r.writtenBytes = 0) := by
    intro e2 inc1 tr1 br d hinc
    refine ⟨?_, ?_, ?_⟩
    · intro e3 tr2 h
      unfold handleDetail at h
      iterate 4 (all_goals try split at h)
      all_goals try cases h
      all_goals rfl
    · intro e3 inc2 tr2 h
      unfold handleDetail at h
      iterate 4 (all_goals try split at h)
      all_goals try cases h
      all_goals exact ⟨rfl, hinc⟩
    · intro r h
      unfold handleDetail at h
      iterate 4 (all_goals try split at h)
      all_goals try cases h
      all_goals exact ⟨rfl, rfl⟩
  cases inc with
  | none =>
    have := hmain
      { e with yamux := (e.yamux.incomingData e.encryption.decoded).1 }
      none tr (e.yamux.incomingData e.encryption.decoded).2.1
      (e.yamux.incomingData e.encryption.decoded).2.2 rfl
    exact ⟨fun e1 tr1 h => this.1 e1 tr1 h,
           fun e1 inc1 tr1 h => this.2.1 e1 inc1 tr1 h,
           fun r h => this.2.2 r h⟩
  | some frames =>
    have := hmain
      { e with encryption := (e.encryption.injectInboundData frames).1,
               yamux := (e.yamux.incomingData (e.encryption.injectInboundData frames).1.decoded).1 }
      (some []) (tr + frames.length)
      (e.yamux.incomingData (e.encryption.injectInboundData frames).1.decoded).2.1
      (e.yamux.incomingData (e.encryption.injectInboundData frames).1.decoded).2.2 rfl
    exact ⟨fun e1 tr1 h => this.1 e1 tr1 h,
           fun e1 inc1 tr1 h => (this.2.1 e1 inc1 tr1 h),
           fun r h => this.2.2 r h⟩

theorem decodeLoop_read (fuel : Nat) (e : Established) (inc : Option (List Frame)) (tr : Nat) :
    (∀ e1 tr1, decodeLoop fuel e inc tr = .through e1 tr1 →
      tr1 = tr ∨ tr1 = tr + incLen inc) ∧
    (∀ r, decodeLoop fuel e inc tr = .ret (.ok r) →
      r.readBytes = tr + incLen inc ∧ r.writtenBytes = 0) := by
  induction fuel generalizing e inc tr with
  | zero =>
    constructor
    · intro e1 tr1 h
      simp only [decodeLoop] at h
      cases h
      exact Or.inl rfl
    · intro r h
      simp only [decodeLoop] at h
      exact DecodeOut.noConfusion h
  | succ n ih =>
    have hstep := decodeStep_read e inc tr
    constructor
    · intro e1 tr1 h
      simp only [decodeLoop] at h
      rcases hs : decodeStep e inc tr with ⟨e2, tr2⟩ | ⟨e2, inc2, tr2⟩ | ⟨o⟩
      · rw [hs] at h
        obtain ⟨he, ht⟩ := DecodeOut.through.inj h
        rw [← ht]
        exact Or.inr (hstep.1 e2 tr2 hs)
      · rw [hs] at h
        have h2 := hstep.2.1 e2 inc2 tr2 hs
        rcases (ih e2 inc2 tr2).1 e1 tr1 h with hA | hB
        · right; omega
        · right; omega
      · rw [hs] at h
        exact DecodeOut.noConfusion h
    · intro r h
      simp only [decodeLoop] at h
      rcases hs : decodeStep e inc tr with ⟨e2, tr2⟩ | ⟨e2, inc2, tr2⟩ | ⟨o⟩
      · rw [hs] at h
        exact DecodeOut.noConfusion h
      · rw [hs] at h
        have h2 := hstep.2.1 e2 inc2 tr2 hs
        have h3 := (ih e2 inc2 tr2).2 r h
        constructor
        · omega
        · exact h3.2
      · rw [hs] at h
        have ho : o = .ok r := by cases h; rfl
        rw [ho] at hs
        exact hstep.2.2 r hs

/-! ## Claim C6 -/

/-- C6: for every read_write call returning Ok, bytes_read is at most the
length of the inbound input (and 0 when the inbound side is absent), and
bytes_written is at most the sum of the two outgoing region capacities,
whatever the encrypt-out loop does with the two regions. -/
theorem c6_byte_bounds (e : Established) (now : Nat) (inc : Option (List Frame))
    (cap0 cap1 : Nat) (r : ReadWrite) (h : e.readWrite now inc cap0 cap1 = .ok r) :
    r.readBytes ≤ incLen inc ∧ (inc = none → r.readBytes = 0) ∧
      r.writtenBytes ≤ cap0 + cap1 := by
  unfold Established.readWrite at h
  split at h
  · cases h
    exact ⟨Nat.zero_le _, fun _ => rfl, Nat.zero_le _⟩
  · rename_i e1 hnone
    split at h
    · rename_i o hret
      rw [h] at hret
      have h3 := (decodeLoop_read _ e1 inc 0).2 r hret
      refine ⟨by omega, ?_, by omega⟩
      intro hn
      rw [hn] at h3
      simpa using h3.1
    · rename_i e2 tr hthrough
      have htr := (decodeLoop_read _ e1 inc 0).1 e2 tr hthrough
      have hw := writeLoop_written_le (cap0 + cap1 + 1) e2 cap0 cap1 0
      cases h
      dsimp only
      refine ⟨by omega, ?_, by omega⟩
      intro hn
      rw [hn] at htr
      simp only [incLen] at htr
      omega

theorem c6_witness :
    ∃ r, (intoConnection cfgW).readWrite 0 (some [Frame.openSub]) 3 4 = .ok r ∧
      r.readBytes ≤ incLen (some [Frame.openSub]) ∧
      (some [Frame.openSub] = none → r.readBytes = 0) ∧ r.writtenBytes ≤ 3 + 4 := by
  refine ⟨_, rfl, ?_⟩
  exact c6_byte_bounds (intoConnection cfgW) 0 (some [Frame.openSub]) 3 4 _ rfl

/-- The idle result of one read_write call on a freshly constructed
engine. -/
def idleResult : ReadWrite :=
  { connection := intoConnection cfgW, readBytes := 0, writtenBytes := 0,
    wakeUpAfter := none, event := none }

/-! ## The minimum-deadline computation -/

theorem listMin_eq_none (l : List Nat) (h : listMin l = none) : l = [] := by
  cases l with
  | nil => rfl
  | cons x xs =>
    rw [listMin] at h
    rcases hx : listMin xs with _ | m0 <;> rw [hx] at h <;> cases h

theorem listMin_le (l : List Nat) (m : Nat) (h : listMin l = some m) :
    ∀ d ∈ l, m ≤ d := by
  induction l generalizing m with
  | nil => cases h
  | cons x xs ih =>
    intro d hd
    rw [listMin] at h
    rcases hx : listMin xs with _ | m0 <;> rw [hx] at h
    · cases h
      rcases List.mem_cons.mp hd with h1 | h2
      · omega
      · rw [listMin_eq_none xs hx] at h2
        simp at h2
    · cases h
      rcases List.mem_cons.mp hd with h1 | h2
      · by_cases hc : x ≤ m0 <;> simp only [hc, if_true, if_false] <;> omega
      · have := ih m0 hx d h2
        by_cases hc : x ≤ m0 <;> simp only [hc, if_true, if_false] <;> omega

theorem listMin_mem (l : List Nat) (m : Nat) (h : listMin l = some m) : m ∈ l := by
  induction l generalizing m with
  | nil => cases h
  | cons x xs ih =>
    rw [listMin] at h
    rcases hx : listMin xs with _ | m0 <;> rw [hx] at h
    · cases h
      exact List.mem_cons_self _ _
    · cases h
      by_cases hc : x ≤ m0
      · rw [if_pos hc]
        exact List.mem_cons_self _ _
      · rw [if_neg hc]
        exact List.mem_cons_of_mem _ (ih m0 hx)

/-! ## Lemmas about update_now -/

theorem updateNow_inv (e : Established) (now : Nat) (e1 : Established) (ev : Option Event)
    (hu : e.updateNow now = (e1, ev)) (hinv : TimeoutInv e) : TimeoutInv e1 := by
  simp only [Established.updateNow] at hu
  split at hu
  · obtain ⟨he1, _⟩ := Prod.mk.inj hu
    rw [← he1]
    exact hinv
  · obtain ⟨he1, _⟩ := Prod.mk.inj hu
    rw [← he1]
    constructor
    · intro hn
      exact listMin_eq_none _ hn
    · intro t ht d hd
      exact listMin_le _ t ht d hd

theorem updateNow_none_post (e : Established) (now : Nat) (e1 : Established)
    (hu : e.updateNow now = (e1, none)) :
    e1.nextTimeout = none ∨ ∃ t, e1.nextTimeout = some t ∧ now < t := by
  simp only [Established.updateNow] at hu
  split at hu
  · rename_i hcond
    obtain ⟨he1, _⟩ := Prod.mk.inj hu
    rw [← he1]
    rcases hnt : e.nextTimeout with _ | t
    · exact Or.inl rfl
    · right
      refine ⟨t, rfl, ?_⟩
      rw [hnt] at hcond
      simpa using hcond
  · rcases hf : e.yamux.substreams.find? (expiredPred now) with _ | ⟨i, en⟩
    · rw [hf] at hu
      obtain ⟨he1, _⟩ := Prod.mk.inj hu
      rw [← he1]
      rcases hnt : listMin (e.yamux.substreams.filterMap (fun p => p.2.state.requestTimeout))
        with _ | m
      · exact Or.inl hnt
      · right
        refine ⟨m, hnt, ?_⟩
        have hmem := listMin_mem _ m hnt
        obtain ⟨p, hp, hpt⟩ := List.mem_filterMap.mp hmem
        have hnp := List.find?_eq_none.mp hf p hp
        unfold expiredPred at hnp
        rw [hpt] at hnp
        simpa using hnp
    · rw [hf] at hu
      have hpred := List.find?_some hf
      unfold expiredPred at hpred
      obtain ⟨st, q0, c0⟩ := en
      exfalso
      cases st <;> dsimp only [Substream.requestTimeout] at hpred hu
      all_goals try exact Bool.noConfusion hpred
      all_goals obtain ⟨_, hev⟩ := Prod.mk.inj hu
      all_goals exact Option.noConfusion hev

/-! ## The cached timeout through the decode loop -/

theorem incomingData_bearing (y : Yamux) (buf : List Frame) (t : Nat)
    (h : t ∈ (y.incomingData buf).1.bearing) : t ∈ y.bearing := by
  cases buf with
  | nil => exact h
  | cons f rest =>
    cases f with
    | openSub => exact h
    | dataFrame i p =>
      simp only [Yamux.incomingData] at h
      rcases hl : y.lookup i with _ | en <;> rw [hl] at h <;> exact h
    | resetFrame i =>
      simp only [Yamux.incomingData] at h
      rcases hl : y.lookup i with _ | en <;> rw [hl] at h
      · exact h
      · exact bearing_remove y i t h

theorem handleDetail_inv (e2 : Established) (inc1 : Option (List Frame)) (tr1 br : Nat)
    (d : Option Detail) :
    (∀ e3 tr2, handleDetail e2 inc1 tr1 br d = .brk e3 tr2 →
      e3.nextTimeout = e2.nextTimeout ∧ ∀ t ∈ e3.yamux.bearing, t ∈ e2.yamux.bearing) ∧
    (∀ e3 inc2 tr2, handleDetail e2 inc1 tr1 br d = .again e3 inc2 tr2 →
      e3.nextTimeout = e2.nextTimeout ∧ ∀ t ∈ e3.yamux.bearing, t ∈ e2.yamux.bearing) ∧
    (∀ r, handleDetail e2 inc1 tr1 br d = .ret (.ok r) →
      r.connection.nextTimeout = e2.nextTimeout ∧ r.wakeUpAfter = r.connection.nextTimeout ∧
      ∀ t ∈ r.connection.yamux.bearing, t ∈ e2.yamux.bearing) := by
  cases d with
  | none =>
    refine ⟨?_, ?_, ?_⟩
    · intro e3 tr2 h
      simp only [handleDetail] at h
      split at h
      · cases h
        exact ⟨rfl, fun t ht => ht⟩
      · exact StepOut.noConfusion h
    · intro e3 inc2 tr2 h
      simp only [handleDetail] at h
      split at h
      · exact StepOut.noConfusion h
      · cases h
        exact ⟨rfl, fun t ht => ht⟩
    · intro r h
      simp only [handleDetail] at h
      split at h
      · exact StepOut.noConfusion h
      · exact StepOut.noConfusion h
  | some d0 =>
    cases d0 with
    | incomingSubstream =>
      refine ⟨?_, ?_, ?_⟩
      · intro e3 tr2 h
        exact StepOut.noConfusion h
      · intro e3 inc2 tr2 h
        cases h
        refine ⟨rfl, ?_⟩
        intro t ht
        rcases bearing_accept e2.yamux _ t ht with h1 | h2
        · exact h1
        · cases h2
      · intro r h
        exact StepOut.noConfusion h
    | streamReset sid st =>
      refine ⟨?_, ?_, ?_⟩
      · intro e3 tr2 h
        cases st <;> simp only [handleDetail] at h <;> exact StepOut.noConfusion h
      · intro e3 inc2 tr2 h
        cases st <;> simp only [handleDetail] at h <;> try exact StepOut.noConfusion h
        all_goals cases h
        all_goals exact ⟨rfl, fun t ht => ht⟩
      · intro r h
        cases st <;> simp only [handleDetail] at h <;> try exact StepOut.noConfusion h
        all_goals cases h
        all_goals exact ⟨rfl, rfl, fun t ht => ht⟩
    | dataFrame sid payload =>
      have hentry : ∀ (entry : Option Entry) (en : Entry),
          e2.yamux.lookup sid = some en →
          (dispatch (payload.length + 1) e2 sid en payload).entry? = entry →
          ∀ t, t ∈ (match entry with
            | some en1 => e2.yamux.setEntry sid en1
            | none => e2.yamux.remove sid).bearing → t ∈ e2.yamux.bearing := by
        intro entry en hl hdis t ht
        cases entry with
        | none => exact bearing_remove _ _ _ ht
        | some en1 =>
          rcases bearing_setEntry e2.yamux sid en1 t ht with h1 | h2
          · exact h1
          · rcases dispatch_timeout (payload.length + 1) e2 sid en payload en1 hdis with hA | hB
            · rw [hA] at h2
              cases h2
            · rw [hB] at h2
              exact mem_bearing e2.yamux sid en t (lookup_mem _ _ _ hl) h2
      refine ⟨?_, ?_, ?_⟩
      · intro e3 tr2 h
        simp only [handleDetail] at h
        split at h
        · exact StepOut.noConfusion h
        · split at h <;> exact StepOut.noConfusion h
      · intro e3 inc2 tr2 h
        simp only [handleDetail] at h
        split at h
        · exact StepOut.noConfusion h
        · rename_i en hl
          split at h
          · exact StepOut.noConfusion h
          · rename_i entry hdis
            cases h
            refine ⟨rfl, ?_⟩
            intro t ht
            exact hentry entry en hl (by rw [hdis]; rfl) t ht
          · exact StepOut.noConfusion h
      · intro r h
        simp only [handleDetail] at h
        split at h
        · exact Outcome.noConfusion (StepOut.ret.inj h)
        · rename_i en hl
          split at h
          · exact Outcome.noConfusion (StepOut.ret.inj h)
          · exact StepOut.noConfusion h
          · rename_i entry event hdis
            cases h
            refine ⟨rfl, rfl, ?_⟩
            intro t ht
            exact hentry entry en hl (by rw [hdis]; rfl) t ht

theorem decodeStep_inv (e : Established) (inc : Option (List Frame)) (tr : Nat) :
    (∀ e1 tr1, decodeStep e inc tr = .brk e1 tr1 →
      e1.nextTimeout = e.nextTimeout ∧ ∀ t ∈ e1.yamux.bearing, t ∈ e.yamux.bearing) ∧
    (∀ e1 inc1 tr1, decodeStep e inc tr = .again e1 inc1 tr1 →
      e1.nextTimeout = e.nextTimeout ∧ ∀ t ∈ e1.yamux.bearing, t ∈ e.yamux.bearing) ∧
    (∀ r, decodeStep e inc tr = .ret (.ok r) →
      r.connection.nextTimeout = e.nextTimeout ∧ r.wakeUpAfter = r.connection.nextTimeout ∧
      ∀ t ∈ r.connection.yamux.bearing, t ∈ e.yamux.bearing) := by
  cases inc with
  | none =>
    have hh := handleDetail_inv
      { e with yamux := (e.yamux.incomingData e.encryption.decoded).1 }
      none tr (e.yamux.incomingData e.encryption.decoded).2.1
      (e.yamux.incomingData e.encryption.decoded).2.2
    have hb : ∀ t, t ∈ (e.yamux.incomingData e.encryption.decoded).1.bearing →
        t ∈ e.yamux.bearing := fun t ht => incomingData_bearing _ _ t ht
    refine ⟨?_, ?_, ?_⟩
    · intro e1 tr1 h
      obtain ⟨h1, h2⟩ := hh.1 e1 tr1 h
      exact ⟨h1, fun t ht => hb t (h2 t ht)⟩
    · intro e1 inc1 tr1 h
      obtain ⟨h1, h2⟩ := hh.2.1 e1 inc1 tr1 h
      exact ⟨h1, fun t ht => hb t (h2 t ht)⟩
    · intro r h
      obtain ⟨h1, h2, h3⟩ := hh.2.2 r h
      exact ⟨h1, h2, fun t ht => hb t (h3 t ht)⟩
  | some frames =>
    have hh := handleDetail_inv
      { e with encryption := (e.encryption.injectInboundData frames).1,
               yamux := (e.yamux.incomingData (e.encryption.injectInboundData frames).1.decoded).1 }
      (some []) (tr + frames.length)
      (e.yamux.incomingData (e.encryption.injectInboundData frames).1.decoded).2.1
      (e.yamux.incomingData (e.encryption.injectInboundData frames).1.decoded).2.2
    have hb : ∀ t,
        t ∈ (e.yamux.incomingData (e.encryption.injectInboundData frames).1.decoded).1.bearing →
        t ∈ e.yamux.bearing := fun t ht => incomingData_bearing _ _ t ht
    refine ⟨?_, ?_, ?_⟩
    · intro e1 tr1 h
      obtain ⟨h1, h2⟩ := hh.1 e1 tr1 h
      exact ⟨h1, fun t ht => hb t (h2 t ht)⟩
    · intro e1 inc1 tr1 h
      obtain ⟨h1, h2⟩ := hh.2.1 e1 inc1 tr1 h
      exact ⟨h1, fun t ht => hb t (h2 t ht)⟩
    · intro r h
      obtain ⟨h1, h2, h3⟩ := hh.2.2 r h
      exact ⟨h1, h2, fun t ht => hb t (h3 t ht)⟩

theorem decodeLoop_inv (fuel : Nat) (e : Established) (inc : Option (List Frame)) (tr : Nat) :
    (∀ e1 tr1, decodeLoop fuel e inc tr = .through e1 tr1 →
      e1.nextTimeout = e.nextTimeout ∧ ∀ t ∈ e1.yamux.bearing, t ∈ e.yamux.bearing) ∧
    (∀ r, decodeLoop fuel e inc tr = .ret (.ok r) →
      r.connection.nextTimeout = e.nextTimeout ∧ r.wakeUpAfter = r.connection.nextTimeout ∧
      ∀ t ∈ r.connection.yamux.bearing, t ∈ e.yamux.bearing) := by
  induction fuel generalizing e inc tr with
  | zero =>
    constructor
    · intro e1 tr1 h
      simp only [decodeLoop] at h
      cases h
      exact ⟨rfl, fun t ht => ht⟩
    · intro r h
      simp only [decodeLoop] at h
      exact DecodeOut.noConfusion h
  | succ n ih =>
    have hstep := decodeStep_inv e inc tr
    constructor
    · intro e1 tr1 h
      simp only [decodeLoop] at h
      rcases hs : decodeStep e inc tr with ⟨e2, tr2⟩ | ⟨e2, inc2, tr2⟩ | ⟨o⟩
      · rw [hs] at h
        obtain ⟨hA, hB⟩ := hstep.1 e2 tr2 hs
        obtain ⟨he1, _⟩ := DecodeOut.through.inj h
        rw [← he1]
        exact ⟨hA, hB⟩
      · rw [hs] at h
        obtain ⟨hA, hB⟩ := hstep.2.1 e2 inc2 tr2 hs
        obtain ⟨hC, hD⟩ := (ih e2 inc2 tr2).1 e1 tr1 h
        exact ⟨hC.trans hA, fun t ht => hB t (hD t ht)⟩
      · rw [hs] at h
        exact DecodeOut.noConfusion h
    · intro r h
      simp only [decodeLoop] at h
      rcases hs : decodeStep e inc tr with ⟨e2, tr2⟩ | ⟨e2, inc2, tr2⟩ | ⟨o⟩
      · rw [hs] at h
        exact DecodeOut.noConfusion h
      · rw [hs] at h
        obtain ⟨hA, hB⟩ := hstep.2.1 e2 inc2 tr2 hs
        obtain ⟨hC, hD, hE⟩ := (ih e2 inc2 tr2).2 r h
        exact ⟨hC.trans hA, hD, fun t ht => hB t (hE t ht)⟩
      · rw [hs] at h
        have ho : o = .ok r := by cases h; rfl
        rw [ho] at hs
        exact hstep.2.2 r hs

theorem writeLoop_bearing (fuel : Nat) (e : Established) (c0 c1 t : Nat) :
    (writeLoop fuel e c0 c1 t).1.yamux.bearing = e.yamux.bearing := by
  induction fuel generalizing e c0 c1 t with
  | zero => rfl
  | succ n ih =>
    rw [writeLoop_succ]
    by_cases h0 : c0 + c1 = 0
    · rw [if_pos h0]
    · rw [if_neg h0]
      have hex : ((e.yamux.extractOut (c0 + c1)).2).bearing = e.yamux.bearing :=
        extractFromSubs_bearing e.yamux.substreams (c0 + c1)
      by_cases he : (e.yamux.extractOut (c0 + c1)).1.length = 0
      · rw [if_pos he]
        exact hex
      · rw [if_neg he]
        by_cases hsw : c0 - Nat.min (e.yamux.extractOut (c0 + c1)).1.length c0 = 0
        · rw [if_pos hsw]
          rw [ih]
          exact hex
        · rw [if_neg hsw]
          rw [ih]
          exact hex

/-! ## Lemmas about identifier lookup in the multiplexer table -/

theorem find_key_filter_ne (l : List (Nat × Entry)) (i j : Nat) (hij : ¬ i = j) :
    (l.filter (fun p => ¬ p.1 = j)).find? (fun p => p.1 = i) =
      l.find? (fun p => p.1 = i) := by
  induction l with
  | nil => rfl
  | cons p rest ih =>
    by_cases hpj : p.1 = j
    · have hpi : ¬ p.1 = i := by rw [hpj]; exact fun hc => hij hc.symm
      rw [List.filter_cons_of_neg (by simp [hpj])]
      rw [List.find?_cons_of_neg _ (by simp [hpi])]
      exact ih
    · rw [List.filter_cons_of_pos (by simp [hpj])]
      by_cases hpi : p.1 = i
      · rw [List.find?_cons_of_pos _ (by simp [hpi]), List.find?_cons_of_pos _ (by simp [hpi])]
      · rw [List.find?_cons_of_neg _ (by simp [hpi]), List.find?_cons_of_neg _ (by simp [hpi])]
        exact ih

theorem find_key_filter_self (l : List (Nat × Entry)) (i : Nat) :
    (l.filter (fun p => ¬ p.1 = i)).find? (fun p => p.1 = i) = none := by
  rw [List.find?_eq_none]
  intro p hp
  have h2 := (List.mem_filter.mp hp).2
  simp at h2 ⊢
  exact h2

theorem find_key_map_ne (l : List (Nat × Entry)) (i j : Nat) (en : Entry) (hij : ¬ i = j) :
    (l.map (fun p => if p.1 = j then (j, en) else p)).find? (fun p => p.1 = i) =
      l.find? (fun p => p.1 = i) := by
  induction l with
  | nil => rfl
  | cons p rest ih =>
    by_cases hpj : p.1 = j
    · have hpi : ¬ p.1 = i := by rw [hpj]; exact fun hc => hij hc.symm
      have hji : ¬ (j : Nat) = i := fun hc => hij hc.symm
      rw [List.map_cons, if_pos hpj]
      rw [List.find?_cons_of_neg _ (by simp [hji])]
      rw [List.find?_cons_of_neg _ (by simp [hpi])]
      exact ih
    · rw [List.map_cons, if_neg hpj]
      by_cases hpi : p.1 = i
      · rw [List.find?_cons_of_pos _ (by simp [hpi]), List.find?_cons_of_pos _ (by simp [hpi])]
      · rw [List.find?_cons_of_neg _ (by simp [hpi]), List.find?_cons_of_neg _ (by simp [hpi])]
        exact ih

theorem find_key_map_self (l : List (Nat × Entry)) (i : Nat) (en p0 : Entry)
    (h : l.find? (fun p => p.1 = i) = some (i, p0)) :
    (l.map (fun p => if p.1 = i then (i, en) else p)).find? (fun p => p.1 = i) =
      some (i, en) := by
  induction l with
  | nil => cases h
  | cons p rest ih =>
    by_cases hpi : p.1 = i
    · rw [List.map_cons, if_pos hpi]
      rw [List.find?_cons_of_pos _ (by simp)]
    · rw [List.find?_cons_of_neg _ (by simp [hpi])] at h
      rw [List.map_cons, if_neg hpi]
      rw [List.find?_cons_of_neg _ (by simp [hpi])]
      exact ih h

theorem find_key_append_ne (l : List (Nat × Entry)) (i k : Nat) (en : Entry) (hki : ¬ k = i) :
    (l ++ [(k, en)]).find? (fun p => p.1 = i) = l.find? (fun p => p.1 = i) := by
  induction l with
  | nil =>
    show List.find? _ [(k, en)] = _
    rw [List.find?_cons_of_neg _ (by simp [hki])]
  | cons p rest ih =>
    rw [List.cons_append]
    by_cases hpi : p.1 = i
    · rw [List.find?_cons_of_pos _ (by simp [hpi]), List.find?_cons_of_pos _ (by simp [hpi])]
    · rw [List.find?_cons_of_neg _ (by simp [hpi]), List.find?_cons_of_neg _ (by simp [hpi])]
      exact ih

theorem lookup_none_iff (y : Yamux) (i : Nat) :
    y.lookup i = none ↔ ∀ p ∈ y.substreams, ¬ p.1 = i := by
  unfold Yamux.lookup
  constructor
  · intro h p hp
    rcases hf : y.substreams.find? (fun p => p.1 = i) with _ | p0
    · have := List.find?_eq_none.mp hf p hp
      simpa using this
    · rw [hf] at h
      cases h
  · intro h
    have : y.substreams.find? (fun p => p.1 = i) = none := by
      rw [List.find?_eq_none]
      intro p hp
      simpa using h p hp
    rw [this]

theorem lookup_remove_self (y : Yamux) (i : Nat) : (y.remove i).lookup i = none := by
  unfold Yamux.lookup Yamux.remove
  simp only
  rw [find_key_filter_self]

theorem lookup_remove_ne (y : Yamux) (i j : Nat) (hij : ¬ i = j) :
    (y.remove j).lookup i = y.lookup i := by
  unfold Yamux.lookup Yamux.remove
  simp only
  rw [find_key_filter_ne _ _ _ hij]

theorem lookup_setEntry_ne (y : Yamux) (i j : Nat) (en : Entry) (hij : ¬ i = j) :
    (y.setEntry j en).lookup i = y.lookup i := by
  unfold Yamux.lookup Yamux.setEntry
  simp only
  rw [find_key_map_ne _ _ _ _ hij]

theorem lookup_setEntry_self (y : Yamux) (i : Nat) (en en0 : Entry)
    (h : y.lookup i = some en0) : (y.setEntry i en).lookup i = some en := by
  unfold Yamux.lookup at h ⊢
  unfold Yamux.setEntry
  simp only
  rcases hf : y.substreams.find? (fun p => p.1 = i) with _ | p0
  · rw [hf] at h
    cases h
  · rw [hf] at h
    have hp1 : p0.1 = i := by simpa using List.find?_some hf
    have hp : p0 = (i, en0) := by
      cases h
      cases p0
      simp only [Prod.mk.injEq]
      exact ⟨hp1, trivial⟩
    rw [hp] at hf
    rw [find_key_map_self _ _ _ _ hf]

theorem lookup_accept_lt (y : Yamux) (st : Substream) (i : Nat) (h : i < y.nextId) :
    (y.acceptPending st).lookup i = y.lookup i := by
  unfold Yamux.lookup Yamux.acceptPending
  simp only
  rw [find_key_append_ne _ _ _ _ (by omega)]

theorem lookup_open_lt (y : Yamux) (st : Substream) (i : Nat) (h : i < y.nextId) :
    (y.openSubstream st).1.lookup i = y.lookup i := by
  unfold Yamux.lookup Yamux.openSubstream
  simp only
  rw [find_key_append_ne _ _ _ _ (by omega)]

/-! ## Dead identifiers are never revived and never appear in events -/

/-- A dead identifier at the multiplexer level: below the allocation
counter and absent from the table. -/
def deadY (y : Yamux) (i : Nat) : Prop := i < y.nextId ∧ y.lookup i = none

theorem deadY_remove (y : Yamux) (i j : Nat) (h : deadY y i) : deadY (y.remove j) i := by
  refine ⟨h.1, ?_⟩
  by_cases hij : i = j
  · rw [hij]
    exact lookup_remove_self y j
  · rw [lookup_remove_ne y i j hij]
    exact h.2

theorem deadY_setEntry (y : Yamux) (i j : Nat) (en : Entry) (hj : ¬ i = j)
    (h : deadY y i) : deadY (y.setEntry j en) i := by
  refine ⟨h.1, ?_⟩
  rw [lookup_setEntry_ne y i j en hj]
  exact h.2

theorem deadY_accept (y : Yamux) (st : Substream) (i : Nat) (h : deadY y i) :
    deadY (y.acceptPending st) i := by
  have h1 := h.1
  refine ⟨by show i < y.nextId + 1; omega, ?_⟩
  rw [lookup_accept_lt y st i h.1]
  exact h.2

theorem incomingData_dead (y : Yamux) (buf : List Frame) (i : Nat) (h : deadY y i) :
    deadY (y.incomingData buf).1 i := by
  cases buf with
  | nil => exact h
  | cons f rest =>
    cases f with
    | openSub => exact h
    | dataFrame j p =>
      simp only [Yamux.incomingData]
      rcases hl : y.lookup j with _ | en <;> exact h
    | resetFrame j =>
      simp only [Yamux.incomingData]
      rcases hl : y.lookup j with _ | en
      · exact h
      · exact deadY_remove y i j h

theorem incomingData_reset_live (y : Yamux) (buf : List Frame) (sid : Nat) (st : Substream)
    (h : (y.incomingData buf).2.2 = some (.streamReset sid st)) :
    ∃ en, y.lookup sid = some en ∧ en.state = st := by
  cases buf with
  | nil => cases h
  | cons f rest =>
    cases f with
    | openSub => cases h
    | dataFrame j p =>
      simp only [Yamux.incomingData] at h
      rcases hl : y.lookup j with _ | en <;> rw [hl] at h <;> cases h
    | resetFrame j =>
      simp only [Yamux.incomingData] at h
      rcases hl : y.lookup j with _ | en <;> rw [hl] at h
      · cases h
      · obtain ⟨h1, h2⟩ := Detail.streamReset.inj (Option.some.inj h)
        exact ⟨en, by rw [← h1]; exact hl, h2⟩

theorem lookup_none_find (y : Yamux) (i : Nat) (h : y.lookup i = none) :
    y.substreams.find? (fun p => p.1 = i) = none := by
  unfold Yamux.lookup at h
  rcases hf : y.substreams.find? (fun p => p.1 = i) with _ | p
  · exact hf
  · rw [hf] at h
    cases h

theorem extract_dead (y : Yamux) (m i : Nat) (h : deadY y i) :
    deadY (y.extractOut m).2 i := by
  refine ⟨h.1, ?_⟩
  unfold Yamux.lookup Yamux.extractOut
  simp only
  rw [extractFromSubs_find_none y.substreams m i (lookup_none_find y i h.2)]

theorem writeLoop_dead (fuel : Nat) (e : Established) (c0 c1 t i : Nat)
    (h : deadY e.yamux i) : deadY (writeLoop fuel e c0 c1 t).1.yamux i := by
  induction fuel generalizing e c0 c1 t with
  | zero => exact h
  | succ n ih =>
    rw [writeLoop_succ]
    by_cases h0 : c0 + c1 = 0
    · rw [if_pos h0]
      exact h
    · rw [if_neg h0]
      have hex : deadY ((e.yamux.extractOut (c0 + c1)).2) i := extract_dead _ _ _ h
      by_cases he : (e.yamux.extractOut (c0 + c1)).1.length = 0
      · rw [if_pos he]
        exact hex
      · rw [if_neg he]
        by_cases hsw : c0 - Nat.min (e.yamux.extractOut (c0 + c1)).1.length c0 = 0
        · rw [if_pos hsw]
          exact ih _ _ _ _ hex
        · rw [if_neg hsw]
          exact ih _ _ _ _ hex

theorem updateNow_dead (e : Established) (now : Nat) (e1 : Established) (ev : Option Event)
    (hu : e.updateNow now = (e1, ev)) (i : Nat) (h : deadY e.yamux i) :
    deadY e1.yamux i ∧ ∀ ev0, ev = some ev0 → ev0.id? ≠ some i := by
  simp only [Established.updateNow] at hu
  split at hu
  · obtain ⟨he1, hev⟩ := Prod.mk.inj hu
    rw [← he1]
    refine ⟨h, fun ev0 hv => ?_⟩
    rw [← hev] at hv
    cases hv
  · rcases hf : e.yamux.substreams.find? (expiredPred now) with _ | ⟨j, en⟩ <;> rw [hf] at hu
    · obtain ⟨he1, hev⟩ := Prod.mk.inj hu
      rw [← he1]
      refine ⟨⟨h.1, h.2⟩, fun ev0 hv => ?_⟩
      rw [← hev] at hv
      cases hv
    · have hmem := List.mem_of_find?_eq_some hf
      have hji : ¬ j = i := by
        intro hj
        rw [hj] at hmem
        have := (lookup_none_iff e.yamux i).mp h.2 (i, en) hmem
        simp at this
      obtain ⟨st, q0, c0⟩ := en
      obtain ⟨he1, hev⟩ := Prod.mk.inj hu
      rw [← he1]
      refine ⟨⟨h.1, by rw [lookup_remove_ne _ _ _ (fun hc => hji hc.symm)]; exact h.2⟩, ?_⟩
      intro ev0 hv
      rw [← hev] at hv
      cases st <;>
        first
          | exact Option.noConfusion hv
          | (cases hv
             simp only [Event.id?]
             intro hc
             exact hji (Option.some.inj hc))

theorem handleDetail_dead (e2 : Established) (inc1 : Option (List Frame)) (tr1 br : Nat)
    (d : Option Detail) (i : Nat) (hdead : deadY e2.yamux i)
    (hrs : ∀ sid st, d = some (.streamReset sid st) → ¬ sid = i) :
    (∀ e3 tr2, handleDetail e2 inc1 tr1 br d = .brk e3 tr2 → deadY e3.yamux i) ∧
    (∀ e3 inc2 tr2, handleDetail e2 inc1 tr1 br d = .again e3 inc2 tr2 → deadY e3.yamux i) ∧
    (∀ r, handleDetail e2 inc1 tr1 br d = .ret (.ok r) →
      deadY r.connection.yamux i ∧ ∀ ev, r.event = some ev → ev.id? ≠ some i) := by
  cases d with
  | none =>
    refine ⟨?_, ?_, ?_⟩
    · intro e3 tr2 h
      simp only [handleDetail] at h
      split at h
      · cases h
        exact hdead
      · exact StepOut.noConfusion h
    · intro e3 inc2 tr2 h
      simp only [handleDetail] at h
      split at h
      · exact StepOut.noConfusion h
      · cases h
        exact hdead
    · intro r h
      simp only [handleDetail] at h
      split at h
      · exact StepOut.noConfusion h
      · exact StepOut.noConfusion h
  | some d0 =>
    cases d0 with
    | incomingSubstream =>
      refine ⟨?_, ?_, ?_⟩
      · intro e3 tr2 h
        exact StepOut.noConfusion h
      · intro e3 inc2 tr2 h
        cases h
        exact deadY_accept _ _ _ hdead
      · intro r h
        exact StepOut.noConfusion h
    | streamReset sid st =>
      have hsid : ¬ sid = i := hrs sid st rfl
      refine ⟨?_, ?_, ?_⟩
      · intro e3 tr2 h
        cases st <;> simp only [handleDetail] at h <;> exact StepOut.noConfusion h
      · intro e3 inc2 tr2 h
        cases st <;> simp only [handleDetail] at h <;> try exact StepOut.noConfusion h
        all_goals cases h
        all_goals exact hdead
      · intro r h
        cases st <;> simp only [handleDetail] at h <;>
          first
            | exact StepOut.noConfusion h
            | exact Outcome.noConfusion (StepOut.ret.inj h)
            | (cases h
               refine ⟨hdead, fun ev hv => ?_⟩
               cases hv
               simp only [Event.id?]
               intro hc
               exact hsid (Option.some.inj hc))
    | dataFrame sid payload =>
      refine ⟨?_, ?_, ?_⟩
      · intro e3 tr2 h
        simp only [handleDetail] at h
        split at h
        · exact StepOut.noConfusion h
        · split at h <;> exact StepOut.noConfusion h
      · intro e3 inc2 tr2 h
        simp only [handleDetail] at h
        split at h
        · exact StepOut.noConfusion h
        · rename_i en hl
          have hsid : ¬ sid = i := by
            intro hc
            rw [hc] at hl
            rw [hdead.2] at hl
            cases hl
          split at h
          · exact StepOut.noConfusion h
          · rename_i entry hdis
            cases h
            cases entry with
            | none => exact deadY_remove _ _ _ hdead
            | some en1 => exact deadY_setEntry _ _ _ _ (fun hc => hsid hc.symm) hdead
          · exact StepOut.noConfusion h
      · intro r h
        simp only [handleDetail] at h
        split at h
        · exact Outcome.noConfusion (StepOut.ret.inj h)
        · rename_i en hl
          have hsid : ¬ sid = i := by
            intro hc
            rw [hc] at hl
            rw [hdead.2] at hl
            cases hl
          split at h
          · exact Outcome.noConfusion (StepOut.ret.inj h)
          · exact StepOut.noConfusion h
          · rename_i entry event hdis
            cases h
            have hev : event.id? = some sid :=
              dispatch_event_id (payload.length + 1) e2 sid en payload event
                (by rw [hdis]; rfl)
            constructor
            · cases entry with
              | none => exact deadY_remove _ _ _ hdead
              | some en1 => exact deadY_setEntry _ _ _ _ (fun hc => hsid hc.symm) hdead
            · intro ev hv
              cases hv
              rw [hev]
              intro hc
              exact hsid (Option.some.inj hc)

theorem decodeStep_dead (e : Established) (inc : Option (List Frame)) (tr i : Nat)
    (h : deadY e.yamux i) :
    (∀ e1 tr1, decodeStep e inc tr = .brk e1 tr1 → deadY e1.yamux i) ∧
    (∀ e1 inc1 tr1, decodeStep e inc tr = .again e1 inc1 tr1 → deadY e1.yamux i) ∧
    (∀ r, decodeStep e inc tr = .ret (.ok r) →
      deadY r.connection.yamux i ∧ ∀ ev, r.event = some ev → ev.id? ≠ some i) := by
  have hmain : ∀ (enc : Noise) (inc1 : Option (List Frame)) (tr1 : Nat),
      (∀ e1 tr2, decodeStep e inc tr = .brk e1 tr2 → deadY e1.yamux i) ∧
      (∀ e1 inc2 tr2, decodeStep e inc tr = .again e1 inc2 tr2 → deadY e1.yamux i) ∧
      (∀ r, decodeStep e inc tr = .ret (.ok r) →
        deadY r.connection.yamux i ∧ ∀ ev, r.event = some ev → ev.id? ≠ some i) := by
    intro enc inc1 tr1
    cases inc with
    | none =>
      have hh := handleDetail_dead
        { e with yamux := (e.yamux.incomingData e.encryption.decoded).1 }
        none tr (e.yamux.incomingData e.encryption.decoded).2.1
        (e.yamux.incomingData e.encryption.decoded).2.2 i
        (incomingData_dead e.yamux e.encryption.decoded i h)
        (by
          intro sid st hd hci
          obtain ⟨en, hlk, _⟩ := incomingData_reset_live e.yamux e.encryption.decoded sid st hd
          rw [hci] at hlk
          rw [h.2] at hlk
          cases hlk)
      exact ⟨fun e1 tr2 hs => hh.1 e1 tr2 hs,
             fun e1 inc2 tr2 hs => hh.2.1 e1 inc2 tr2 hs,
             fun r hs => hh.2.2 r hs⟩
    | some frames =>
      have hh := handleDetail_dead
        { e with encryption := (e.encryption.injectInboundData frames).1,
                 yamux := (e.yamux.incomingData (e.encryption.injectInboundData frames).1.decoded).1 }
        (some []) (tr + frames.length)
        (e.yamux.incomingData (e.encryption.injectInboundData frames).1.decoded).2.1
        (e.yamux.incomingData (e.encryption.injectInboundData frames).1.decoded).2.2 i
        (incomingData_dead e.yamux _ i h)
        (by
          intro sid st hd hci
          obtain ⟨en, hlk, _⟩ := incomingData_reset_live e.yamux _ sid st hd
          rw [hci] at hlk
          rw [h.2] at hlk
          cases hlk)
      exact ⟨fun e1 tr2 hs => hh.1 e1 tr2 hs,
             fun e1 inc2 tr2 hs => hh.2.1 e1 inc2 tr2 hs,
             fun r hs => hh.2.2 r hs⟩
  exact hmain e.encryption inc tr

theorem decodeLoop_dead (fuel : Nat) (e : Established) (inc : Option (List Frame))
    (tr i : Nat) (h : deadY e.yamux i) :
    (∀ e1 tr1, decodeLoop fuel e inc tr = .through e1 tr1 → deadY e1.yamux i) ∧
    (∀ r, decodeLoop fuel e inc tr = .ret (.ok r) →
      deadY r.connection.yamux i ∧ ∀ ev, r.event = some ev → ev.id? ≠ some i) := by
  induction fuel generalizing e inc tr with
  | zero =>
    constructor
    · intro e1 tr1 hL
      simp only [decodeLoop] at hL
      cases hL
      exact h
    · intro r hL
      simp only [decodeLoop] at hL
      exact DecodeOut.noConfusion hL
  | succ n ih =>
    have hstep := decodeStep_dead e inc tr i h
    constructor
    · intro e1 tr1 hL
      simp only [decodeLoop] at hL
      rcases hs : decodeStep e inc tr with ⟨e2, tr2⟩ | ⟨e2, inc2, tr2⟩ | ⟨o⟩ <;> rw [hs] at hL
      · obtain ⟨he1, _⟩ := DecodeOut.through.inj hL
        rw [← he1]
        exact hstep.1 e2 tr2 hs
      · exact (ih e2 inc2 tr2 (hstep.2.1 e2 inc2 tr2 hs)).1 e1 tr1 hL
      · exact DecodeOut.noConfusion hL
    · intro r hL
      simp only [decodeLoop] at hL
      rcases hs : decodeStep e inc tr with ⟨e2, tr2⟩ | ⟨e2, inc2, tr2⟩ | ⟨o⟩ <;> rw [hs] at hL
      · exact DecodeOut.noConfusion hL
      · exact (ih e2 inc2 tr2 (hstep.2.1 e2 inc2 tr2 hs)).2 r hL
      · have ho : o = .ok r := by cases hL; rfl
        rw [ho] at hs
        exact hstep.2.2 r hs

/-! ## Retired identifiers: well-formed tables and quiet substreams -/

/-- Well-formedness of a multiplexer table: keys below the allocation
counter and pairwise distinct. -/
def WfY (y : Yamux) : Prop :=
  (∀ p ∈ y.substreams, p.1 < y.nextId) ∧ (y.substreams.map Prod.fst).Nodup

/-- A quiet identifier of a multiplexer table: allocated, and either gone
or parked in state NegotiationFailed. -/
def quietY (y : Yamux) (i : Nat) : Prop :=
  i < y.nextId ∧
  (y.lookup i = none ∨
    ∃ q c, y.lookup i = some { state := .negotiationFailed, writeQueue := q, closed := c })

theorem lookup_some_find (y : Yamux) (i : Nat) (en : Entry) (h : y.lookup i = some en) :
    y.substreams.find? (fun p => p.1 = i) = some (i, en) := by
  unfold Yamux.lookup at h
  rcases hf : y.substreams.find? (fun p => p.1 = i) with _ | p <;> rw [hf] at h
  · cases h
  · have hp1 : p.1 = i := by simpa using List.find?_some hf
    obtain ⟨pa, pb⟩ := p
    cases h
    simp only at hp1
    rw [hp1] at hf
    exact hf

theorem find_key_of_mem_nodup (l : List (Nat × Entry)) (i : Nat) (en : Entry)
    (hnd : (l.map Prod.fst).Nodup) (hm : (i, en) ∈ l) :
    l.find? (fun p => p.1 = i) = some (i, en) := by
  induction l with
  | nil => cases hm
  | cons p rest ih =>
    rw [List.map_cons, List.nodup_cons] at hnd
    rcases List.mem_cons.mp hm with h1 | h2
    · rw [← h1]
      rw [List.find?_cons_of_pos _ (by simp)]
    · by_cases hpi : p.1 = i
      · exfalso
        apply hnd.1
        rw [hpi]
        exact List.mem_map.mpr ⟨(i, en), h2, rfl⟩
      · rw [List.find?_cons_of_neg _ (by simp [hpi])]
        exact ih hnd.2 h2

theorem lookup_of_mem_nodup (y : Yamux) (i : Nat) (en : Entry)
    (hnd : (y.substreams.map Prod.fst).Nodup) (hm : (i, en) ∈ y.substreams) :
    y.lookup i = some en := by
  unfold Yamux.lookup
  rw [find_key_of_mem_nodup y.substreams i en hnd hm]

theorem keys_setEntry (l : List (Nat × Entry)) (i : Nat) (en : Entry) :
    (l.map (fun p => if p.1 = i then (i, en) else p)).map Prod.fst = l.map Prod.fst := by
  induction l with
  | nil => rfl
  | cons p rest ih =>
    by_cases hp : p.1 = i
    · simp only [List.map_cons, if_pos hp, ih]
      rw [hp]
    · simp only [List.map_cons, if_neg hp, ih]

theorem WfY_remove (y : Yamux) (j : Nat) (h : WfY y) : WfY (y.remove j) := by
  constructor
  · intro p hp
    exact h.1 p (List.mem_of_mem_filter hp)
  · exact List.Nodup.sublist ((List.filter_sublist _).map Prod.fst) h.2

theorem WfY_setEntry (y : Yamux) (i : Nat) (en : Entry) (h : WfY y) :
    WfY (y.setEntry i en) := by
  constructor
  · intro p hp
    unfold Yamux.setEntry at hp
    simp only [List.mem_map] at hp
    obtain ⟨p0, hp0, hpe⟩ := hp
    by_cases hc : p0.1 = i
    · rw [if_pos hc] at hpe
      rw [← hpe]
      show i < y.nextId
      rw [← hc]
      exact h.1 p0 hp0
    · rw [if_neg hc] at hpe
      rw [← hpe]
      exact h.1 p0 hp0
  · show ((y.substreams.map (fun p => if p.1 = i then (i, en) else p)).map Prod.fst).Nodup
    rw [keys_setEntry]
    exact h.2

theorem WfY_accept (y : Yamux) (st : Substream) (h : WfY y) : WfY (y.acceptPending st) := by
  constructor
  · intro p hp
    unfold Yamux.acceptPending at hp
    simp only [List.mem_append, List.mem_singleton] at hp
    show p.1 < y.nextId + 1
    rcases hp with hp | hp
    · have := h.1 p hp
      omega
    · rw [hp]
      show y.nextId < y.nextId + 1
      omega
  · show ((y.substreams ++ [(y.nextId, _)]).map Prod.fst).Nodup
    rw [List.map_append]
    rw [List.nodup_append]
    refine ⟨h.2, List.nodup_singleton _, ?_⟩
    intro a ha hb
    simp only [List.map_cons, List.map_nil, List.mem_singleton] at hb
    obtain ⟨p, hp, hpa⟩ := List.mem_map.mp ha
    have := h.1 p hp
    omega

theorem WfY_extract (y : Yamux) (m : Nat) (h : WfY y) : WfY (y.extractOut m).2 := by
  constructor
  · intro p hp
    have hk : p.1 ∈ (extractFromSubs y.substreams m).2.map Prod.fst :=
      List.mem_map_of_mem _ hp
    rw [extractFromSubs_keys] at hk
    obtain ⟨p0, hp0, hpe⟩ := List.mem_map.mp hk
    have := h.1 p0 hp0
    show p.1 < y.nextId
    omega
  · show ((extractFromSubs y.substreams m).2.map Prod.fst).Nodup
    rw [extractFromSubs_keys]
    exact h.2

theorem quietY_remove (y : Yamux) (i j : Nat) (h : quietY y i) : quietY (y.remove j) i := by
  refine ⟨h.1, ?_⟩
  by_cases hji : j = i
  · rw [hji]
    exact Or.inl (lookup_remove_self y i)
  · rw [lookup_remove_ne y i j (fun hc => hji hc.symm)]
    exact h.2

theorem quietY_setEntry_ne (y : Yamux) (i j : Nat) (en : Entry) (hij : ¬ i = j)
    (h : quietY y i) : quietY (y.setEntry j en) i := by
  refine ⟨h.1, ?_⟩
  rw [lookup_setEntry_ne y i j en hij]
  exact h.2

theorem quietY_accept (y : Yamux) (st : Substream) (i : Nat) (h : quietY y i) :
    quietY (y.acceptPending st) i := by
  constructor
  · have h1 := h.1
    show i < y.nextId + 1
    omega
  · rw [lookup_accept_lt y st i h.1]
    exact h.2

theorem extract_quiet (y : Yamux) (m i : Nat) (hq : quietY y i) :
    quietY (y.extractOut m).2 i := by
  refine ⟨hq.1, ?_⟩
  rcases hq.2 with hnone | ⟨q, c, hsome⟩
  · left
    unfold Yamux.lookup
    show (match (extractFromSubs y.substreams m).2.find? (fun p => p.1 = i) with
          | some p => some p.2 | none => none) = none
    rw [extractFromSubs_find_none y.substreams m i (lookup_none_find y i hnone)]
  · right
    have hf := lookup_some_find y i _ hsome
    obtain ⟨q', hf'⟩ := extractFromSubs_find_some y.substreams m i _ hf
    refine ⟨q', c, ?_⟩
    unfold Yamux.lookup
    show (match (extractFromSubs y.substreams m).2.find? (fun p => p.1 = i) with
          | some p => some p.2 | none => none) = some _
    rw [hf']

theorem updateNow_event_err (e : Established) (now : Nat) (e1 : Established) (ev : Event)
    (hu : e.updateNow now = (e1, some ev)) :
    ∃ j ud, ev = .response j ud (.err .timeout) := by
  simp only [Established.updateNow] at hu
  split at hu
  · exact Option.noConfusion (Prod.mk.inj hu).2
  · rcases hf : e.yamux.substreams.find? (expiredPred now) with _ | ⟨j, en⟩ <;> rw [hf] at hu
    · exact Option.noConfusion (Prod.mk.inj hu).2
    · obtain ⟨st, q0, c0⟩ := en
      have hev := (Prod.mk.inj hu).2
      cases st <;>
        first
          | exact Option.noConfusion hev
          | exact ⟨j, _, (Option.some.inj hev).symm⟩

theorem updateNow_quiet (e : Established) (now : Nat) (e1 : Established) (ev : Option Event)
    (hu : e.updateNow now = (e1, ev)) (i : Nat) (hw : WfY e.yamux) (hq : quietY e.yamux i) :
    (WfY e1.yamux ∧ quietY e1.yamux i) ∧ ∀ ev0, ev = some ev0 → ev0.id? ≠ some i := by
  simp only [Established.updateNow] at hu
  split at hu
  · obtain ⟨he1, hev⟩ := Prod.mk.inj hu
    rw [← he1]
    refine ⟨⟨hw, hq⟩, fun ev0 hv => ?_⟩
    rw [← hev] at hv
    cases hv
  · rcases hf : e.yamux.substreams.find? (expiredPred now) with _ | ⟨j, en⟩ <;> rw [hf] at hu
    · obtain ⟨he1, hev⟩ := Prod.mk.inj hu
      rw [← he1]
      refine ⟨⟨⟨hw.1, hw.2⟩, ⟨hq.1, hq.2⟩⟩, fun ev0 hv => ?_⟩
      rw [← hev] at hv
      cases hv
    · have hmem := List.mem_of_find?_eq_some hf
      obtain ⟨st, q0, c0⟩ := en
      obtain ⟨he1, hev⟩ := Prod.mk.inj hu
      rw [← he1]
      refine ⟨⟨WfY_remove e.yamux j hw, quietY_remove e.yamux i j hq⟩, ?_⟩
      intro ev0 hv
      rw [← hev] at hv
      cases st <;>
        first
          | exact Option.noConfusion hv
          | (cases hv
             simp only [Event.id?]
             intro hc
             have hji : j = i := Option.some.inj hc
             rw [hji] at hmem
             have hlk := lookup_of_mem_nodup e.yamux i _ hw.2 hmem
             rcases hq.2 with hnone | ⟨q, c, hsome⟩
             · rw [hnone] at hlk
               cases hlk
             · rw [hsome] at hlk
               exact Substream.noConfusion (Entry.mk.inj (Option.some.inj hlk)).1)

theorem incomingData_quiet (y : Yamux) (buf : List Frame) (i : Nat)
    (hw : WfY y) (hq : quietY y i) :
    WfY (y.incomingData buf).1 ∧ quietY (y.incomingData buf).1 i := by
  cases buf with
  | nil => exact ⟨hw, hq⟩
  | cons f rest =>
    cases f with
    | openSub => exact ⟨hw, hq⟩
    | dataFrame j p =>
      rcases hl : y.lookup j with _ | en <;> simp only [Yamux.incomingData, hl] <;>
        exact ⟨hw, hq⟩
    | resetFrame j =>
      rcases hl : y.lookup j with _ | en <;> simp only [Yamux.incomingData, hl]
      · exact ⟨hw, hq⟩
      · exact ⟨WfY_remove y j hw, quietY_remove y i j hq⟩

theorem handleDetail_quiet (e2 : Established) (inc1 : Option (List Frame)) (tr1 br : Nat)
    (d : Option Detail) (i : Nat) (hw : WfY e2.yamux) (hq : quietY e2.yamux i)
    (hrs : ∀ sid st, d = some (.streamReset sid st) → sid = i → st = .negotiationFailed) :
    (∀ e3 tr2, handleDetail e2 inc1 tr1 br d = .brk e3 tr2 →
      WfY e3.yamux ∧ quietY e3.yamux i) ∧
    (∀ e3 inc2 tr2, handleDetail e2 inc1 tr1 br d = .again e3 inc2 tr2 →
      WfY e3.yamux ∧ quietY e3.yamux i) ∧
    (∀ r, handleDetail e2 inc1 tr1 br d = .ret (.ok r) →
      (WfY r.connection.yamux ∧ quietY r.connection.yamux i) ∧
      ∀ ev, r.event = some ev → ev.id? ≠ some i) := by
  cases d with
  | none =>
    refine ⟨?_, ?_, ?_⟩
    · intro e3 tr2 h
      simp only [handleDetail] at h
      split at h
      · cases h
        exact ⟨hw, hq⟩
      · exact StepOut.noConfusion h
    · intro e3 inc2 tr2 h
      simp only [handleDetail] at h
      split at h
      · exact StepOut.noConfusion h
      · cases h
        exact ⟨hw, hq⟩
    · intro r h
      simp only [handleDetail] at h
      split at h <;> exact StepOut.noConfusion h
  | some d0 =>
    cases d0 with
    | incomingSubstream =>
      refine ⟨?_, ?_, ?_⟩
      · intro e3 tr2 h
        exact StepOut.noConfusion h
      · intro e3 inc2 tr2 h
        cases h
        exact ⟨WfY_accept _ _ hw, quietY_accept _ _ _ hq⟩
      · intro r h
        exact StepOut.noConfusion h
    | streamReset sid st =>
      refine ⟨?_, ?_, ?_⟩
      · intro e3 tr2 h
        cases st <;> simp only [handleDetail] at h <;> exact StepOut.noConfusion h
      · intro e3 inc2 tr2 h
        cases st <;> simp only [handleDetail] at h <;> try exact StepOut.noConfusion h
        all_goals cases h
        all_goals exact ⟨hw, hq⟩
      · intro r h
        have hsi : sid = i → st = .negotiationFailed := hrs sid st rfl
        cases st <;> simp only [handleDetail] at h <;>
          first
            | exact StepOut.noConfusion h
            | exact Outcome.noConfusion (StepOut.ret.inj h)
            | (cases h
               refine ⟨⟨hw, hq⟩, fun ev hv => ?_⟩
               cases hv
               simp only [Event.id?]
               intro hc
               exact Substream.noConfusion (hsi (Option.some.inj hc)))
    | dataFrame sid payload =>
      refine ⟨?_, ?_, ?_⟩
      · intro e3 tr2 h
        simp only [handleDetail] at h
        split at h
        · exact StepOut.noConfusion h
        · split at h <;> exact StepOut.noConfusion h
      · intro e3 inc2 tr2 h
        simp only [handleDetail] at h
        split at h
        · exact StepOut.noConfusion h
        · rename_i en hl
          split at h
          · exact StepOut.noConfusion h
          · rename_i entry hdis
            cases h
            by_cases hsi : sid = i
            · rcases hq.2 with hnone | ⟨q, c, hsome⟩
              · rw [hsi, hnone] at hl
                cases hl
              · rw [hsi] at hl ⊢
                have hen : en = { state := .negotiationFailed, writeQueue := q, closed := c } := by
                  rw [hl] at hsome
                  exact Option.some.inj hsome
                rw [hen] at hdis
                rw [dispatch_negotiationFailed] at hdis
                have hentry : entry =
                    some { state := .negotiationFailed, writeQueue := q, closed := c } :=
                  (DispatchOut.done.inj hdis).symm
                rw [hentry]
                refine ⟨WfY_setEntry e2.yamux i _ hw, hq.1, Or.inr ⟨q, c, ?_⟩⟩
                exact lookup_setEntry_self e2.yamux i _ en hl
            · cases entry with
              | none => exact ⟨WfY_remove _ _ hw, quietY_remove _ _ _ hq⟩
              | some en1 =>
                exact ⟨WfY_setEntry _ _ _ hw,
                       quietY_setEntry_ne _ _ _ _ (fun hc => hsi hc.symm) hq⟩
          · exact StepOut.noConfusion h
      · intro r h
        simp only [handleDetail] at h
        split at h
        · exact Outcome.noConfusion (StepOut.ret.inj h)
        · rename_i en hl
          split at h
          · exact Outcome.noConfusion (StepOut.ret.inj h)
          · exact StepOut.noConfusion h
          · rename_i entry event hdis
            cases h
            by_cases hsi : sid = i
            · exfalso
              rcases hq.2 with hnone | ⟨q, c, hsome⟩
              · rw [hsi, hnone] at hl
                cases hl
              · rw [hsi] at hl
                have hen : en = { state := .negotiationFailed, writeQueue := q, closed := c } := by
                  rw [hl] at hsome
                  exact Option.some.inj hsome
                rw [hen] at hdis
                rw [dispatch_negotiationFailed] at hdis
                exact DispatchOut.noConfusion hdis
            · have hid : event.id? = some sid :=
                dispatch_event_id (payload.length + 1) e2 sid en payload event
                  (by rw [hdis]; rfl)
              refine ⟨?_, fun ev hv => ?_⟩
              · cases entry with
                | none => exact ⟨WfY_remove _ _ hw, quietY_remove _ _ _ hq⟩
                | some en1 =>
                  exact ⟨WfY_setEntry _ _ _ hw,
                         quietY_setEntry_ne _ _ _ _ (fun hc => hsi hc.symm) hq⟩
              · cases hv
                rw [hid]
                intro hc
                exact hsi (Option.some.inj hc)

theorem decodeStep_quiet (e : Established) (inc : Option (List Frame)) (tr i : Nat)
    (hw : WfY e.yamux) (hq : quietY e.yamux i) :
    (∀ e1 tr1, decodeStep e inc tr = .brk e1 tr1 → WfY e1.yamux ∧ quietY e1.yamux i) ∧
    (∀ e1 inc1 tr1, decodeStep e inc tr = .again e1 inc1 tr1 →
      WfY e1.yamux ∧ quietY e1.yamux i) ∧
    (∀ r, decodeStep e inc tr = .ret (.ok r) →
      (WfY r.connection.yamux ∧ quietY r.connection.yamux i) ∧
      ∀ ev, r.event = some ev → ev.id? ≠ some i) := by
  cases inc with
  | none =>
    have hid := incomingData_quiet e.yamux e.encryption.decoded i hw hq
    have hh := handleDetail_quiet
      { e with yamux := (e.yamux.incomingData e.encryption.decoded).1 }
      none tr (e.yamux.incomingData e.encryption.decoded).2.1
      (e.yamux.incomingData e.encryption.decoded).2.2 i hid.1 hid.2
      (by
        intro sid st hd hsi
        obtain ⟨en, hlk, hst⟩ := incomingData_reset_live e.yamux e.encryption.decoded sid st hd
        rw [hsi] at hlk
        rcases hq.2 with hnone | ⟨q, c, hsome⟩
        · rw [hnone] at hlk
          cases hlk
        · rw [hsome] at hlk
          rw [← hst, ← Option.some.inj hlk])
    exact ⟨fun e1 tr1 hs => hh.1 e1 tr1 hs,
           fun e1 inc1 tr1 hs => hh.2.1 e1 inc1 tr1 hs,
           fun r hs => hh.2.2 r hs⟩
  | some frames =>
    have hid := incomingData_quiet e.yamux
      (e.encryption.injectInboundData frames).1.decoded i hw hq
    have hh := handleDetail_quiet
      { e with encryption := (e.encryption.injectInboundData frames).1,
               yamux := (e.yamux.incomingData (e.encryption.injectInboundData frames).1.decoded).1 }
      (some []) (tr + frames.length)
      (e.yamux.incomingData (e.encryption.injectInboundData frames).1.decoded).2.1
      (e.yamux.incomingData (e.encryption.injectInboundData frames).1.decoded).2.2 i hid.1 hid.2
      (by
        intro sid st hd hsi
        obtain ⟨en, hlk, hst⟩ := incomingData_reset_live e.yamux _ sid st hd
        rw [hsi] at hlk
        rcases hq.2 with hnone | ⟨q, c, hsome⟩
        · rw [hnone] at hlk
          cases hlk
        · rw [hsome] at hlk
          rw [← hst, ← Option.some.inj hlk])
    exact ⟨fun e1 tr1 hs => hh.1 e1 tr1 hs,
           fun e1 inc1 tr1 hs => hh.2.1 e1 inc1 tr1 hs,
           fun r hs => hh.2.2 r hs⟩

theorem decodeLoop_quiet (fuel : Nat) (e : Established) (inc : Option (List Frame))
    (tr i : Nat) (hw : WfY e.yamux) (hq : quietY e.yamux i) :
    (∀ e1 tr1, decodeLoop fuel e inc tr = .through e1 tr1 →
      WfY e1.yamux ∧ quietY e1.yamux i) ∧
    (∀ r, decodeLoop fuel e inc tr = .ret (.ok r) →
      (WfY r.connection.yamux ∧ quietY r.connection.yamux i) ∧
      ∀ ev, r.event = some ev → ev.id? ≠ some i) := by
  induction fuel generalizing e inc tr with
  | zero =>
    constructor
    · intro e1 tr1 hL
      simp only [decodeLoop] at hL
      cases hL
      exact ⟨hw, hq⟩
    · intro r hL
      simp only [decodeLoop] at hL
      exact DecodeOut.noConfusion hL
  | succ n ih =>
    have hstep := decodeStep_quiet e inc tr i hw hq
    constructor
    · intro e1 tr1 hL
      simp only [decodeLoop] at hL
      rcases hs : decodeStep e inc tr with ⟨e2, tr2⟩ | ⟨e2, inc2, tr2⟩ | ⟨o⟩ <;> rw [hs] at hL
      · obtain ⟨he1, _⟩ := DecodeOut.through.inj hL
        rw [← he1]
        exact hstep.1 e2 tr2 hs
      · have hst := hstep.2.1 e2 inc2 tr2 hs
        exact (ih e2 inc2 tr2 hst.1 hst.2).1 e1 tr1 hL
      · exact DecodeOut.noConfusion hL
    · intro r hL
      simp only [decodeLoop] at hL
      rcases hs : decodeStep e inc tr with ⟨e2, tr2⟩ | ⟨e2, inc2, tr2⟩ | ⟨o⟩ <;> rw [hs] at hL
      · exact DecodeOut.noConfusion hL
      · have hst := hstep.2.1 e2 inc2 tr2 hs
        exact (ih e2 inc2 tr2 hst.1 hst.2).2 r hL
      · have ho : o = .ok r := by cases hL; rfl
        rw [ho] at hs
        exact hstep.2.2 r hs

theorem writeLoop_quiet (fuel : Nat) (e : Established) (c0 c1 t i : Nat)
    (hw : WfY e.yamux) (hq : quietY e.yamux i) :
    WfY (writeLoop fuel e c0 c1 t).1.yamux ∧ quietY (writeLoop fuel e c0 c1 t).1.yamux i := by
  induction fuel generalizing e c0 c1 t with
  | zero => exact ⟨hw, hq⟩
  | succ n ih =>
    rw [writeLoop_succ]
    by_cases h0 : c0 + c1 = 0
    · rw [if_pos h0]
      exact ⟨hw, hq⟩
    · rw [if_neg h0]
      have hex : WfY ((e.yamux.extractOut (c0 + c1)).2) ∧
          quietY ((e.yamux.extractOut (c0 + c1)).2) i :=
        ⟨WfY_extract _ _ hw, extract_quiet _ _ _ hq⟩
      by_cases he : (e.yamux.extractOut (c0 + c1)).1.length = 0
      · rw [if_pos he]
        exact hex
      · rw [if_neg he]
        by_cases hsw : c0 - Nat.min (e.yamux.extractOut (c0 + c1)).1.length c0 = 0
        · rw [if_pos hsw]
          exact ih _ _ _ _ hex.1 hex.2
        · rw [if_neg hsw]
          exact ih _ _ _ _ hex.1 hex.2

theorem handleDetail_response_ok (e2 : Established) (inc1 : Option (List Frame)) (tr1 br : Nat)
    (d : Option Detail) (r : ReadWrite) (j ud : Nat) (v : List Byte)
    (h : handleDetail e2 inc1 tr1 br d = .ret (.ok r))
    (hev : r.event = some (.response j ud (.ok v))) :
    ∃ q c, r.connection.yamux.lookup j =
      some { state := .negotiationFailed, writeQueue := q, closed := c } := by
  cases d with
  | none =>
    simp only [handleDetail] at h
    split at h <;> exact StepOut.noConfusion h
  | some d0 =>
    cases d0 with
    | incomingSubstream => exact StepOut.noConfusion h
    | streamReset sid st =>
      cases st <;> simp only [handleDetail] at h <;>
        first
          | exact StepOut.noConfusion h
          | exact Outcome.noConfusion (StepOut.ret.inj h)
          | (cases h
             exact RequestOutcome.noConfusion
               (Event.response.inj (Option.some.inj hev)).2.2)
    | dataFrame sid payload =>
      simp only [handleDetail] at h
      split at h
      · exact Outcome.noConfusion (StepOut.ret.inj h)
      · rename_i en hl
        split at h
        · exact Outcome.noConfusion (StepOut.ret.inj h)
        · exact StepOut.noConfusion h
        · rename_i entry event hdis
          cases h
          have heq : event = .response j ud (.ok v) := Option.some.inj hev
          have hid : event.id? = some sid :=
            dispatch_event_id (payload.length + 1) e2 sid en payload event
              (by rw [hdis]; rfl)
          have hsj : j = sid := by
            rw [heq] at hid
            exact Option.some.inj hid
          obtain ⟨q, c, hent⟩ := dispatch_response_ok (payload.length + 1) e2 sid en payload
            (.ev entry event) hdis j ud v
            (by simp only [DispatchOut.event?]; rw [heq])
          have hentry : entry =
              some { state := .negotiationFailed, writeQueue := q, closed := c } := hent
          refine ⟨q, c, ?_⟩
          rw [hentry, hsj]
          exact lookup_setEntry_self e2.yamux sid _ en hl

theorem decodeStep_response_ok (e : Established) (inc : Option (List Frame)) (tr : Nat)
    (r : ReadWrite) (j ud : Nat) (v : List Byte)
    (h : decodeStep e inc tr = .ret (.ok r))
    (hev : r.event = some (.response j ud (.ok v))) :
    ∃ q c, r.connection.yamux.lookup j =
      some { state := .negotiationFailed, writeQueue := q, closed := c } := by
  cases inc with
  | none => exact handleDetail_response_ok _ _ _ _ _ r j ud v h hev
  | some frames => exact handleDetail_response_ok _ _ _ _ _ r j ud v h hev

theorem decodeLoop_response_ok (fuel : Nat) (e : Established) (inc : Option (List Frame))
    (tr : Nat) (r : ReadWrite) (j ud : Nat) (v : List Byte)
    (h : decodeLoop fuel e inc tr = .ret (.ok r))
    (hev : r.event = some (.response j ud (.ok v))) :
    ∃ q c, r.connection.yamux.lookup j =
      some { state := .negotiationFailed, writeQueue := q, closed := c } := by
  induction fuel generalizing e inc tr with
  | zero => exact DecodeOut.noConfusion h
  | succ n ih =>
    simp only [decodeLoop] at h
    rcases hs : decodeStep e inc tr with ⟨e2, tr2⟩ | ⟨e2, inc2, tr2⟩ | ⟨o⟩ <;> rw [hs] at h
    · exact DecodeOut.noConfusion h
    · exact ih e2 inc2 tr2 h
    · have ho : o = .ok r := by cases h; rfl
      rw [ho] at hs
      exact decodeStep_response_ok e inc tr r j ud v hs hev

/-! ## Shape lemmas for the decode loop: progress and quiescence -/

theorem remove_length_lt (y : Yamux) (i : Nat) (en : Entry) (h : y.lookup i = some en) :
    (y.remove i).substreams.length < y.substreams.length := by
  have hf := lookup_some_find y i en h
  have hmem := List.mem_of_find?_eq_some hf
  show (y.substreams.filter (fun p => ¬ p.1 = i)).length < y.substreams.length
  rw [List.length_filter_lt_length_iff_exists]
  exact ⟨(i, en), hmem, by simp⟩

theorem incomingData_shape (y : Yamux) (buf : List Frame) :
    (buf = [] ∧ y.incomingData buf = (y, 0, none)) ∨
    (¬ buf = [] ∧ (y.incomingData buf).2.1 = 1 ∧
      (((y.incomingData buf).1 = y ∧
          ∀ sid st, ¬ (y.incomingData buf).2.2 = some (.streamReset sid st)) ∨
        (y.incomingData buf).1.substreams.length < y.substreams.length)) := by
  cases buf with
  | nil => exact Or.inl ⟨rfl, rfl⟩
  | cons f rest =>
    right
    refine ⟨by simp, ?_⟩
    cases f with
    | openSub =>
      exact ⟨rfl, Or.inl ⟨rfl, fun sid st hc => Detail.noConfusion (Option.some.inj hc)⟩⟩
    | dataFrame j p =>
      rcases hl : y.lookup j with _ | en
      · have hid : y.incomingData (Frame.dataFrame j p :: rest) = (y, 1, none) := by
          simp only [Yamux.incomingData, hl]
        rw [hid]
        exact ⟨rfl, Or.inl ⟨rfl, fun sid st hc => Option.noConfusion hc⟩⟩
      · have hid : y.incomingData (Frame.dataFrame j p :: rest) =
            (y, 1, some (.dataFrame j p)) := by
          simp only [Yamux.incomingData, hl]
        rw [hid]
        exact ⟨rfl, Or.inl ⟨rfl, fun sid st hc => Detail.noConfusion (Option.some.inj hc)⟩⟩
    | resetFrame j =>
      rcases hl : y.lookup j with _ | en
      · have hid : y.incomingData (Frame.resetFrame j :: rest) = (y, 1, none) := by
          simp only [Yamux.incomingData, hl]
        rw [hid]
        exact ⟨rfl, Or.inl ⟨rfl, fun sid st hc => Option.noConfusion hc⟩⟩
      · have hid : y.incomingData (Frame.resetFrame j :: rest) =
            (y.remove j, 1, some (.streamReset j en.state)) := by
          simp only [Yamux.incomingData, hl]
        rw [hid]
        exact ⟨rfl, Or.inr (remove_length_lt y j en hl)⟩

theorem handleDetail_again_shape (e2 : Established) (inc1 : Option (List Frame)) (tr1 br : Nat)
    (d : Option Detail) (e1 : Established) (inc2 : Option (List Frame)) (tr2 : Nat)
    (h : handleDetail e2 inc1 tr1 br d = .again e1 inc2 tr2) :
    inc2 = inc1 ∧
    (((d = none ∧ ¬ br = 0) ∨ (∃ sid payload, d = some (.dataFrame sid payload))) ∧
        e1.encryption = e2.encryption.consumeInboundData br ∧
        e1.yamux.substreams.length ≤ e2.yamux.substreams.length ∨
      (d = some .incomingSubstream ∧
        e1.encryption = e2.encryption.consumeInboundData br ∧
        e1.yamux.substreams.length = e2.yamux.substreams.length + 1) ∨
      (∃ sid st, d = some (.streamReset sid st) ∧ e1 = e2)) := by
  cases d with
  | none =>
    simp only [handleDetail] at h
    split at h
    · exact StepOut.noConfusion h
    · rename_i hbr
      obtain ⟨he1, hi2, _⟩ := StepOut.again.inj h
      refine ⟨hi2.symm, Or.inl ⟨Or.inl ⟨rfl, hbr⟩, ?_, ?_⟩⟩
      · rw [← he1]
      · rw [← he1]
  | some d0 =>
    cases d0 with
    | incomingSubstream =>
      obtain ⟨he1, hi2, _⟩ := StepOut.again.inj h
      refine ⟨hi2.symm, Or.inr (Or.inl ⟨rfl, ?_, ?_⟩)⟩
      · rw [← he1]
      · rw [← he1]
        show (e2.yamux.acceptPending _).substreams.length = e2.yamux.substreams.length + 1
        simp [Yamux.acceptPending]
    | streamReset sid st =>
      cases st <;> simp only [handleDetail] at h <;> try exact StepOut.noConfusion h
      all_goals
        (obtain ⟨he1, hi2, _⟩ := StepOut.again.inj h
         exact ⟨hi2.symm, Or.inr (Or.inr ⟨sid, _, rfl, he1.symm⟩)⟩)
    | dataFrame sid payload =>
      simp only [handleDetail] at h
      split at h
      · exact StepOut.noConfusion h
      · rename_i en hl
        split at h
        · exact StepOut.noConfusion h
        · rename_i entry hdis
          obtain ⟨he1, hi2, _⟩ := StepOut.again.inj h
          refine ⟨hi2.symm, Or.inl ⟨Or.inr ⟨sid, payload, rfl⟩, by rw [← he1], ?_⟩⟩
          rw [← he1]
          cases entry with
          | some en1 =>
            show (e2.yamux.setEntry sid en1).substreams.length ≤ e2.yamux.substreams.length
            unfold Yamux.setEntry
            simp
          | none =>
            show (e2.yamux.remove sid).substreams.length ≤ e2.yamux.substreams.length
            exact List.length_filter_le _ _
        · exact StepOut.noConfusion h

theorem handleDetail_brk_shape (e2 : Established) (inc1 : Option (List Frame)) (tr1 br : Nat)
    (d : Option Detail) (e1 : Established) (tr2 : Nat)
    (h : handleDetail e2 inc1 tr1 br d = .brk e1 tr2) :
    e1 = e2 ∧ br = 0 ∧ d = none := by
  cases d with
  | none =>
    simp only [handleDetail] at h
    split at h
    · rename_i hbr
      obtain ⟨he1, _⟩ := StepOut.brk.inj h
      exact ⟨he1.symm, hbr, rfl⟩
    · exact StepOut.noConfusion h
  | some d0 =>
    cases d0 with
    | incomingSubstream => exact StepOut.noConfusion h
    | streamReset sid st =>
      cases st <;> simp only [handleDetail] at h <;> exact StepOut.noConfusion h
    | dataFrame sid payload =>
      simp only [handleDetail] at h
      split at h
      · exact StepOut.noConfusion h
      · split at h <;> exact StepOut.noConfusion h

theorem handleDetail_ret_event (e2 : Established) (inc1 : Option (List Frame)) (tr1 br : Nat)
    (d : Option Detail) (r : ReadWrite)
    (h : handleDetail e2 inc1 tr1 br d = .ret (.ok r)) : ∃ ev, r.event = some ev := by
  cases d with
  | none =>
    simp only [handleDetail] at h
    split at h <;> exact StepOut.noConfusion h
  | some d0 =>
    cases d0 with
    | incomingSubstream => exact StepOut.noConfusion h
    | streamReset sid st =>
      cases st <;> simp only [handleDetail] at h <;>
        first
          | exact StepOut.noConfusion h
          | exact Outcome.noConfusion (StepOut.ret.inj h)
          | (cases h
             exact ⟨_, rfl⟩)
    | dataFrame sid payload =>
      simp only [handleDetail] at h
      split at h
      · exact Outcome.noConfusion (StepOut.ret.inj h)
      · split at h
        · exact Outcome.noConfusion (StepOut.ret.inj h)
        · exact StepOut.noConfusion h
        · cases h
          exact ⟨_, rfl⟩

theorem decodeStep_ret_event (e : Established) (inc : Option (List Frame)) (tr : Nat)
    (r : ReadWrite) (h : decodeStep e inc tr = .ret (.ok r)) : ∃ ev, r.event = some ev := by
  cases inc with
  | none => exact handleDetail_ret_event _ _ _ _ _ r h
  | some frames => exact handleDetail_ret_event _ _ _ _ _ r h

theorem decodeLoop_ret_event (fuel : Nat) (e : Established) (inc : Option (List Frame))
    (tr : Nat) (r : ReadWrite) (h : decodeLoop fuel e inc tr = .ret (.ok r)) :
    ∃ ev, r.event = some ev := by
  induction fuel generalizing e inc tr with
  | zero => exact DecodeOut.noConfusion h
  | succ n ih =>
    simp only [decodeLoop] at h
    rcases hs : decodeStep e inc tr with ⟨e2, tr2⟩ | ⟨e2, inc2, tr2⟩ | ⟨o⟩ <;> rw [hs] at h
    · exact DecodeOut.noConfusion h
    · exact ih e2 inc2 tr2 h
    · have ho : o = .ok r := by cases h; rfl
      rw [ho] at hs
      exact decodeStep_ret_event e inc tr r hs

theorem decodeStep_measure (e : Established) (inc : Option (List Frame)) (tr : Nat)
    (e1 : Established) (inc1 : Option (List Frame)) (tr1 : Nat)
    (h : decodeStep e inc tr = .again e1 inc1 tr1) :
    2 * (e1.encryption.decoded.length + incLen inc1) + e1.yamux.substreams.length <
      2 * (e.encryption.decoded.length + incLen inc) + e.yamux.substreams.length := by
  have core : ∀ (eb : Established) (incb : Option (List Frame)) (trb : Nat),
      incLen incb = 0 →
      handleDetail { eb with yamux := (eb.yamux.incomingData eb.encryption.decoded).1 }
          incb trb (eb.yamux.incomingData eb.encryption.decoded).2.1
          (eb.yamux.incomingData eb.encryption.decoded).2.2 = .again e1 inc1 tr1 →
      2 * (e1.encryption.decoded.length + incLen inc1) + e1.yamux.substreams.length <
        2 * eb.encryption.decoded.length + eb.yamux.substreams.length := by
    intro eb incb trb hincb hh
    obtain ⟨hinc1, hsh⟩ := handleDetail_again_shape _ _ _ _ _ _ _ _ hh
    have hincz : incLen inc1 = 0 := by
      rw [hinc1]
      exact hincb
    rcases incomingData_shape eb.yamux eb.encryption.decoded with ⟨hBnil, hval⟩ | ⟨hBne, hbr, hy⟩
    · rcases hsh with ⟨hd, _, _⟩ | ⟨hd, _, _⟩ | ⟨sid, st, hd, _⟩
      · rcases hd with ⟨_, hbr0⟩ | ⟨sid, payload, hd⟩
        · refine absurd ?_ hbr0
          rw [hval]
        · rw [hval] at hd
          exact Option.noConfusion hd
      · rw [hval] at hd
        exact Option.noConfusion hd
      · rw [hval] at hd
        exact Option.noConfusion hd
    · have hlen : 1 ≤ eb.encryption.decoded.length := by
        rcases hB : eb.encryption.decoded with _ | ⟨f, r0⟩
        · exact absurd hB hBne
        · simp
      have hsub2 : (eb.yamux.incomingData eb.encryption.decoded).1.substreams.length ≤
          eb.yamux.substreams.length := by
        rcases hy with ⟨hkeep, _⟩ | hless
        · rw [hkeep]
        · omega
      rcases hsh with ⟨_, henc, hsub⟩ | ⟨_, henc, hsub⟩ | ⟨sid, st, hd, he12⟩
      · have hsub3 : e1.yamux.substreams.length ≤
            (eb.yamux.incomingData eb.encryption.decoded).1.substreams.length := hsub
        have hdec1 : e1.encryption.decoded.length = eb.encryption.decoded.length - 1 := by
          rw [henc]
          show (eb.encryption.consumeInboundData
            (eb.yamux.incomingData eb.encryption.decoded).2.1).decoded.length = _
          rw [hbr]
          simp [Noise.consumeInboundData]
        rw [hincz, hdec1]
        omega
      · have hsub3 : e1.yamux.substreams.length =
            (eb.yamux.incomingData eb.encryption.decoded).1.substreams.length + 1 := hsub
        have hdec1 : e1.encryption.decoded.length = eb.encryption.decoded.length - 1 := by
          rw [henc]
          show (eb.encryption.consumeInboundData
            (eb.yamux.incomingData eb.encryption.decoded).2.1).decoded.length = _
          rw [hbr]
          simp [Noise.consumeInboundData]
        rw [hincz, hdec1]
        omega
      · have hless : (eb.yamux.incomingData eb.encryption.decoded).1.substreams.length <
            eb.yamux.substreams.length := by
          rcases hy with ⟨hkeep, hnores⟩ | hless
          · exact absurd hd (hnores sid st)
          · exact hless
        rw [he12]
        show 2 * (eb.encryption.decoded.length + incLen inc1) +
            (eb.yamux.incomingData eb.encryption.decoded).1.substreams.length < _
        rw [hincz]
        omega
  cases inc with
  | none =>
    have hc := core e none tr rfl h
    have h0 : incLen (none : Option (List Frame)) = 0 := rfl
    omega
  | some frames =>
    have hc := core { e with encryption := (e.encryption.injectInboundData frames).1 }
      (some []) (tr + frames.length) rfl h
    have hc2 : 2 * (e1.encryption.decoded.length + incLen inc1) +
        e1.yamux.substreams.length <
        2 * (e.encryption.injectInboundData frames).1.decoded.length +
          e.yamux.substreams.length := hc
    have hlen : (e.encryption.injectInboundData frames).1.decoded.length =
        e.encryption.decoded.length + frames.length := by
      simp [Noise.injectInboundData]
    rw [hlen] at hc2
    have h0 : incLen (some frames) = frames.length := rfl
    omega

theorem decodeStep_brk_empty (e : Established) (inc : Option (List Frame)) (tr : Nat)
    (e1 : Established) (tr1 : Nat) (h : decodeStep e inc tr = .brk e1 tr1) :
    e1.encryption.decoded = [] := by
  have core : ∀ (eb : Established) (incb : Option (List Frame)) (trb : Nat),
      handleDetail { eb with yamux := (eb.yamux.incomingData eb.encryption.decoded).1 }
          incb trb (eb.yamux.incomingData eb.encryption.decoded).2.1
          (eb.yamux.incomingData eb.encryption.decoded).2.2 = .brk e1 tr1 →
      e1.encryption.decoded = [] := by
    intro eb incb trb hh
    obtain ⟨he1, hbr, _⟩ := handleDetail_brk_shape _ _ _ _ _ _ _ hh
    rcases incomingData_shape eb.yamux eb.encryption.decoded with ⟨hBnil, _⟩ | ⟨_, hbr1, _⟩
    · rw [he1]
      show eb.encryption.decoded = []
      exact hBnil
    · omega
  cases inc with
  | none => exact core e none tr h
  | some frames =>
    exact core { e with encryption := (e.encryption.injectInboundData frames).1 }
      (some []) (tr + frames.length) h

theorem decodeLoop_decoded (fuel : Nat) (e : Established) (inc : Option (List Frame)) (tr : Nat)
    (hfuel : 2 * (e.encryption.decoded.length + incLen inc) + e.yamux.substreams.length < fuel)
    (e1 : Established) (tr1 : Nat) (h : decodeLoop fuel e inc tr = .through e1 tr1) :
    e1.encryption.decoded = [] := by
  induction fuel generalizing e inc tr with
  | zero => omega
  | succ n ih =>
    simp only [decodeLoop] at h
    rcases hs : decodeStep e inc tr with ⟨e2, tr2⟩ | ⟨e2, inc2, tr2⟩ | ⟨o⟩ <;> rw [hs] at h
    · obtain ⟨he, _⟩ := DecodeOut.through.inj h
      rw [← he]
      exact decodeStep_brk_empty e inc tr e2 tr2 hs
    · have hm := decodeStep_measure e inc tr e2 inc2 tr2 hs
      exact ih e2 inc2 tr2 (by omega) h
    · exact DecodeOut.noConfusion h

theorem extractFromSubs_id_of_empty (subs : List (Nat × Entry)) (m : Nat)
    (h : ∀ p ∈ subs, p.2.writeQueue = []) : (extractFromSubs subs m).2 = subs := by
  induction subs generalizing m with
  | nil => simp [extractFromSubs]
  | cons p rest ih =>
    obtain ⟨i, en⟩ := p
    have hq : en.writeQueue = [] := h (i, en) (List.mem_cons_self _ _)
    rw [extractFromSubs, hq, takeFromQueue_nil]
    simp only
    rw [show m - ([] : List Byte).length = m from rfl]
    rw [ih m (fun p hp => h p (List.mem_cons_of_mem _ hp))]
    rw [show ({ state := en.state, writeQueue := [], closed := en.closed } : Entry) = en from
      by rw [← hq]]

theorem updateNow_idle (e : Established) (now : Nat)
    (h : e.nextTimeout = none ∨ ∃ t, e.nextTimeout = some t ∧ now < t) :
    e.updateNow now = (e, none) := by
  have hcond : (match e.nextTimeout with | none => true | some t0 => decide (now < t0)) = true := by
    rcases h with hn | ⟨t, ht, htn⟩
    · rw [hn]
    · rw [ht]
      simpa using htn
  simp only [Established.updateNow]
  rw [if_pos hcond]

theorem decodeStep_idle (e : Established) (tr : Nat) (hdec : e.encryption.decoded = []) :
    decodeStep e none tr = .brk e tr ∧ decodeStep e (some []) tr = .brk e tr := by
  obtain ⟨⟨dec⟩, y, nt, rp, np, pp⟩ := e
  have hd : dec = [] := hdec
  subst hd
  exact ⟨rfl, rfl⟩

theorem c5_finish (e1 rc : Established) (now : Nat) (inc : Option (List Frame))
    (cap0 cap1 : Nat)
    (hinc : inc = none ∨ inc = some [])
    (hdec : rc.encryption.decoded = [])
    (hpost : e1.nextTimeout = none ∨ ∃ t, e1.nextTimeout = some t ∧ now < t)
    (hnt : rc.nextTimeout = e1.nextTimeout)
    (hwfix : writeLoop (cap0 + cap1 + 1) rc cap0 cap1 0 = (rc, 0)) :
    rc.readWrite now inc cap0 cap1 =
      .ok { connection := rc, readBytes := 0, writtenBytes := 0,
            wakeUpAfter := rc.nextTimeout, event := none } := by
  have hup2 : rc.updateNow now = (rc, none) := updateNow_idle rc now (by
    rcases hpost with hp | ⟨t, ht, htn⟩
    · exact Or.inl (by rw [hnt, hp])
    · exact Or.inr ⟨t, by rw [hnt, ht], htn⟩)
  have hstep := decodeStep_idle rc 0 hdec
  have hloop : decodeLoop (decodeFuel rc inc) rc inc 0 = .through rc 0 := by
    rcases hinc with hi | hi
    · rw [hi]
      have hf : decodeFuel rc none = (decodeFuel rc none - 1) + 1 := by
        unfold decodeFuel
        omega
      rw [hf]
      simp only [decodeLoop]
      rw [hstep.1]
    · rw [hi]
      have hf : decodeFuel rc (some []) = (decodeFuel rc (some []) - 1) + 1 := by
        unfold decodeFuel
        omega
      rw [hf]
      simp only [decodeLoop]
      rw [hstep.2]
  unfold Established.readWrite
  simp only [hup2]
  simp only [hloop]
  simp only [hwfix]

/-! ## Claim C1 -/

/-- The engine used by the C1 counterexample: a request installed at time
0 (deadline 20) and a second request installed at time 10 (deadline 30). -/
def c1Engine : Established :=
  (((intoConnection cfgW).addRequest 0 "q" [] 7).1.addRequest 10 "q" [] 8).1

/-- The result of the C1 counterexample call. -/
def c1Result : ReadWrite :=
  { connection :=
      { encryption := { decoded := [Frame.resetFrame 0] },
        yamux :=
          { substreams := [(1,
              { state := Substream.requestOutNegotiating 30 { role := NegoRole.dialer "q" } [] 8,
                writeQueue := [[]], closed := false })],
            nextId := 2 },
        nextTimeout := some 20,
        inRequestProtocols := ["r"], inNotificationsProtocols := ["n"], pingProtocol := "p" },
    readBytes := 1, writtenBytes := 0, wakeUpAfter := some 20,
    event := some (.response 0 7 (.err .substreamReset)) }

/-- C1 counterexample: after a StreamReset retires the deadline-20 request
while a deadline-30 request remains, the event-returning path hands back
the stale wake_up_after = 20, which is strictly below the minimum
remaining deadline 30: wake_up_after is not recomputed on that path and is
not ≥ the minimum deadline as the claim states. -/
theorem c1_counterexample :
    c1Engine.readWrite 15 (some [Frame.resetFrame 0]) 0 0 = .ok c1Result ∧
    c1Result.wakeUpAfter = some 20 ∧ bearingTimeouts c1Result.connection = [30] ∧
    ¬ (∀ t, c1Result.wakeUpAfter = some t →
        ∀ d ∈ bearingTimeouts c1Result.connection, d ≤ t) := by
  refine ⟨by decide, rfl, rfl, ?_⟩
  intro hcl
  have := hcl 20 rfl 30 (by decide)
  omega

/-- C1 amended: at the exit of every read_write call that returns Ok, the
returned wake_up_after, when present, is ≤ (not ≥) the minimum deadline
over all substreams in state RequestOutNegotiating or RequestOut (the
cache may be stale early, and event-returning paths such as the
StreamReset branch return it without recomputation); when wake_up_after is
absent, no deadline-bearing substream exists.  This assumes the same
invariant held on entry, as established by the constructor and preserved
by add_request and open_notifications_substream. -/
theorem c1_amended (e : Established) (now : Nat) (inc : Option (List Frame))
    (cap0 cap1 : Nat) (r : ReadWrite) (hinv : TimeoutInv e)
    (h : e.readWrite now inc cap0 cap1 = .ok r) :
    (∀ t, r.wakeUpAfter = some t → ∀ d ∈ bearingTimeouts r.connection, t ≤ d) ∧
    (r.wakeUpAfter = none → bearingTimeouts r.connection = []) := by
  unfold Established.readWrite at h
  split at h
  · rename_i e1 event hup
    cases h
    have hinv1 := updateNow_inv e now e1 _ hup hinv
    exact ⟨fun t ht d hd => hinv1.2 t ht d hd, fun hn => hinv1.1 hn⟩
  · rename_i e1 hup
    have hinv1 := updateNow_inv e now e1 none hup hinv
    split at h
    · rename_i o hret
      rw [h] at hret
      obtain ⟨hnt, hwake, hsub⟩ := (decodeLoop_inv _ e1 inc 0).2 r hret
      constructor
      · intro t ht d hd
        rw [hwake, hnt] at ht
        exact hinv1.2 t ht d (hsub d hd)
      · intro hn
        rw [hwake, hnt] at hn
        have hnil := hinv1.1 hn
        rw [bearingTimeouts_eq] at hnil ⊢
        refine List.eq_nil_iff_forall_not_mem.mpr ?_
        intro d hd
        have := hsub d hd
        rw [hnil] at this
        simp at this
    · rename_i e2 tr hthrough
      obtain ⟨hnt, hsub⟩ := (decodeLoop_inv _ e1 inc 0).1 e2 tr hthrough
      have hwf := writeLoop_fields (cap0 + cap1 + 1) e2 cap0 cap1 0
      have hwb := writeLoop_bearing (cap0 + cap1 + 1) e2 cap0 cap1 0
      cases h
      dsimp only
      constructor
      · intro t ht d hd
        rw [hwf.2.1, hnt] at ht
        rw [bearingTimeouts_eq, hwb] at hd
        exact hinv1.2 t ht d (hsub d hd)
      · intro hn
        rw [hwf.2.1, hnt] at hn
        have hnil := hinv1.1 hn
        rw [bearingTimeouts_eq, hwb]
        rw [bearingTimeouts_eq] at hnil
        refine List.eq_nil_iff_forall_not_mem.mpr ?_
        intro d hd
        have := hsub d hd
        rw [hnil] at this
        simp at this

theorem c1_witness :
    TimeoutInv (intoConnection cfgW) ∧
    ((∀ t, (idleResult).wakeUpAfter = some t →
        ∀ d ∈ bearingTimeouts (idleResult).connection, t ≤ d) ∧
      ((idleResult).wakeUpAfter = none → bearingTimeouts (idleResult).connection = [])) :=
  ⟨⟨fun _ => rfl, fun t ht => by cases ht⟩,
    c1_amended (intoConnection cfgW) 0 none 0 0 idleResult
      ⟨fun _ => rfl, fun t ht => by cases ht⟩ rfl⟩

/-! ## Claim C4 -/

/-- C4: every read_write call returns either zero or one event: the result
structure carries a single optional event, so no call path produces more
than one event, and the engine state holds no queue of pending events
across calls. -/
theorem c4_at_most_one_event (e : Established) (now : Nat) (inc : Option (List Frame))
    (cap0 cap1 : Nat) (r : ReadWrite) (_h : e.readWrite now inc cap0 cap1 = .ok r) :
    r.event = none ∨ ∃ ev, r.event = some ev := by
  cases r.event with
  | none => exact Or.inl rfl
  | some ev => exact Or.inr ⟨ev, rfl⟩

theorem c4_witness :
    (intoConnection cfgW).readWrite 0 none 0 0 = .ok idleResult ∧
    (idleResult.event = none ∨ ∃ ev, idleResult.event = some ev) :=
  ⟨rfl, c4_at_most_one_event (intoConnection cfgW) 0 none 0 0 idleResult rfl⟩

/-! ## Claim C8 -/

/-- C8: whenever the multiplexer reports an incoming substream, the engine
accepts it unconditionally and initializes it to InboundNegotiating as a
listener whose offered protocols are exactly in_request_protocols, then
in_notifications_protocols, then the ping protocol, in that order. -/
theorem c8_incoming_substream (reqs notifs : List Proto) (ping : Proto) (n0 now : Nat) :
    Established.readWrite
      { encryption := { decoded := [] }, yamux := { substreams := [], nextId := n0 },
        nextTimeout := none, inRequestProtocols := reqs,
        inNotificationsProtocols := notifs, pingProtocol := ping }
      now (some [Frame.openSub]) 0 0 =
    .ok { connection :=
            { encryption := { decoded := [] },
              yamux :=
                { substreams := [(n0,
                    { state := Substream.inboundNegotiating { role := NegoRole.listener (reqs ++ notifs ++ [ping]) },
                      writeQueue := [], closed := false })],
                  nextId := n0 + 1 },
              nextTimeout := none, inRequestProtocols := reqs,
              inNotificationsProtocols := notifs, pingProtocol := ping },
          readBytes := 1, writtenBytes := 0, wakeUpAfter := none, event := none } := rfl

/-! ## Claim C2 -/

/-- C2 counterexample: a StreamReset delivered for a substream that is in
state NotificationsOutNegotiating (not RequestOut, not
RequestOutNegotiating) is not dropped silently as claimed: the call hits
the source's todo sink (a Rust panic) and produces no Ok result at all. -/
theorem c2_counterexample :
    resetProbe ["r"] ["n"] "p"
      (.notificationsOutNegotiating 20 { role := .dialer "q" } [1]) = .aborts ∧
    ∀ r, resetProbe ["r"] ["n"] "p"
      (.notificationsOutNegotiating 20 { role := .dialer "q" } [1]) ≠ .ok r := by
  have h : resetProbe ["r"] ["n"] "p"
      (.notificationsOutNegotiating 20 { role := .dialer "q" } [1]) = .aborts := rfl
  refine ⟨h, fun r hr => ?_⟩
  rw [h] at hr
  exact Outcome.noConfusion hr

/-- C2 amended: a StreamReset for a substream in state RequestOut or
RequestOutNegotiating returns exactly one Response event with err
SubstreamReset carrying that substream's id and user tag; a reset in state
InboundNegotiating, NegotiationFailed, RequestInRecv,
NotificationsInHandshake, NotificationsInWait or PingIn is dropped
silently and processing continues normally; in the remaining states
(Poisoned, the notifications-out family, RequestInSend) the call hits an
unreachable or todo sink instead of dropping the reset silently. -/
theorem c2_amended (reqs notifs : List Proto) (ping : Proto) :
    (∀ t n req ud, resetProbe reqs notifs ping (.requestOutNegotiating t n req ud) =
        resetEventOutcome reqs notifs ping ud) ∧
    (∀ t ud f, resetProbe reqs notifs ping (.requestOut t ud f) =
        resetEventOutcome reqs notifs ping ud) ∧
    (∀ n, resetProbe reqs notifs ping (.inboundNegotiating n) =
        resetSilentOutcome reqs notifs ping) ∧
    (resetProbe reqs notifs ping .negotiationFailed = resetSilentOutcome reqs notifs ping) ∧
    (∀ f pr, resetProbe reqs notifs ping (.requestInRecv f pr) =
        resetSilentOutcome reqs notifs ping) ∧
    (∀ f pr, resetProbe reqs notifs ping (.notificationsInHandshake f pr) =
        resetSilentOutcome reqs notifs ping) ∧
    (resetProbe reqs notifs ping .notificationsInWait = resetSilentOutcome reqs notifs ping) ∧
    (∀ p, resetProbe reqs notifs ping (.pingIn p) = resetSilentOutcome reqs notifs ping) ∧
    (∀ t n hs, resetProbe reqs notifs ping (.notificationsOutNegotiating t n hs) = .aborts) ∧
    (∀ f, resetProbe reqs notifs ping (.notificationsOutHandshakeRecv f) = .aborts) ∧
    (resetProbe reqs notifs ping .notificationsOut = .aborts) ∧
    (resetProbe reqs notifs ping .requestInSend = .aborts) ∧
    (resetProbe reqs notifs ping .poisoned = .aborts) :=
  ⟨fun _ _ _ _ => rfl, fun _ _ _ => rfl, fun _ => rfl, rfl, fun _ _ => rfl, fun _ _ => rfl,
    rfl, fun _ => rfl, fun _ _ _ => rfl, fun _ => rfl, rfl, rfl, rfl⟩

/-! ## Claim C7 -/

/-- C7: when the negotiation of an InboundNegotiating substream completes
with Success, the engine writes the negotiation output onto the
substream's write queue and transitions: to PingIn with an empty payload
buffer when the selected protocol equals the ping protocol, else to
RequestInRecv with a fresh framed reader of capacity 10 MiB when it is one
of in_request_protocols, else to NotificationsInHandshake with a fresh
framed reader of capacity 10 MiB; the ping comparison takes precedence
over request-protocol membership. -/
theorem c7_inbound_negotiation_success (enc : Noise) (y : Yamux) (nt : Option Nat)
    (reqs notifs : List Proto) (ping : Proto) (sid : Nat) (q : List (List Byte))
    (c : Bool) (fuel k : Nat) (hk : k < (reqs ++ notifs ++ [ping]).length) :
    ∃ en,
      dispatch (fuel + 1)
        { encryption := enc, yamux := y, nextTimeout := nt, inRequestProtocols := reqs,
          inNotificationsProtocols := notifs, pingProtocol := ping } sid
        { state := .inboundNegotiating { role := .listener (reqs ++ notifs ++ [ping]) },
          writeQueue := q, closed := c } [k] = .done (some en) ∧
      en.writeQueue = q ++ [[90]] ∧ en.closed = c ∧
      ((reqs ++ notifs ++ [ping]).get ⟨k, hk⟩ = ping → en.state = .pingIn []) ∧
      (¬ (reqs ++ notifs ++ [ping]).get ⟨k, hk⟩ = ping →
        (reqs ++ notifs ++ [ping]).get ⟨k, hk⟩ ∈ reqs →
        en.state = .requestInRecv (Framed.new (10 * 1024 * 1024))
          ((reqs ++ notifs ++ [ping]).get ⟨k, hk⟩)) ∧
      (¬ (reqs ++ notifs ++ [ping]).get ⟨k, hk⟩ = ping →
        ¬ (reqs ++ notifs ++ [ping]).get ⟨k, hk⟩ ∈ reqs →
        en.state = .notificationsInHandshake (Framed.new (10 * 1024 * 1024))
          ((reqs ++ notifs ++ [ping]).get ⟨k, hk⟩)) := by
  have hstep : dispatch (fuel + 1)
      { encryption := enc, yamux := y, nextTimeout := nt, inRequestProtocols := reqs,
        inNotificationsProtocols := notifs, pingProtocol := ping } sid
      { state := .inboundNegotiating { role := .listener (reqs ++ notifs ++ [ping]) },
        writeQueue := q, closed := c } [k] =
      .done (some
        { state :=
            if (reqs ++ notifs ++ [ping]).get ⟨k, hk⟩ = ping then Substream.pingIn []
            else if reqs.any (fun p => p = (reqs ++ notifs ++ [ping]).get ⟨k, hk⟩) then
              Substream.requestInRecv (Framed.new (10 * 1024 * 1024))
                ((reqs ++ notifs ++ [ping]).get ⟨k, hk⟩)
            else
              Substream.notificationsInHandshake (Framed.new (10 * 1024 * 1024))
                ((reqs ++ notifs ++ [ping]).get ⟨k, hk⟩),
          writeQueue := q ++ [[90]], closed := c }) := by
    simp only [dispatch, Nego.readWriteVec]
    rw [dif_pos hk]
    cases fuel <;> rfl
  refine ⟨_, hstep, rfl, rfl, fun hp => ?_, fun hp hmem => ?_, fun hp hmem => ?_⟩
  · simp only [if_pos hp]
  · have hany : reqs.any (fun p => p = (reqs ++ notifs ++ [ping]).get ⟨k, hk⟩) = true :=
      List.any_eq_true.mpr ⟨_, hmem, by simp⟩
    simp only [if_neg hp, hany]
    simp
  · have hany : reqs.any (fun p => p = (reqs ++ notifs ++ [ping]).get ⟨k, hk⟩) = false := by
      simp only [List.any_eq_false, decide_eq_true_eq]
      intro x hx he
      exact hmem (he ▸ hx)
    simp only [if_neg hp, hany]
    simp

/-! ## Claim C9 -/

/-- Processing a concatenation of two slices through the ping loop equals
processing them one after the other. -/
theorem pingLoop_append (d1 d2 : List Byte) (p : List Byte) (q : List (List Byte)) :
    pingLoop p (d1 ++ d2) q = pingLoop (pingLoop p d1 q).1 d2 (pingLoop p d1 q).2 := by
  induction d1 generalizing p q with
  | nil => simp [pingLoop]
  | cons b rest ih =>
    simp only [List.cons_append, pingLoop]
    split
    · exact ih _ _
    · exact ih _ _

/-- A run over a sequence of slices equals one ping loop over their
concatenation. -/
theorem pingRun_join (slices : List (List Byte)) (p : List Byte) (q : List (List Byte)) :
    pingRun slices p q = pingLoop p slices.flatten q := by
  induction slices generalizing p q with
  | nil => simp [pingRun, pingLoop]
  | cons d rest ih =>
    have h1 : pingRun (d :: rest) p q = pingRun rest (pingLoop p d q).1 (pingLoop p d q).2 := rfl
    rw [h1, ih, List.flatten_cons, pingLoop_append]

/-- Filling the remainder of the 32-byte payload buffer enqueues the
completed block and restarts with an empty buffer. -/
theorem pingLoop_fill (n : Nat) (p bs : List Byte) (q : List (List Byte))
    (hp : p.length + n = 32) (hn : 0 < n) (hbs : n ≤ bs.length) :
    pingLoop p bs q = pingLoop [] (bs.drop n) (q ++ [p ++ bs.take n]) := by
  induction n generalizing p bs q with
  | zero => omega
  | succ m ih =>
    cases bs with
    | nil => simp at hbs
    | cons b rest =>
      by_cases h32 : (p ++ [b]).length = 32
      · have hm : m = 0 := by
          simp only [List.length_append, List.length_singleton] at h32
          omega
        subst hm
        show pingLoop p (b :: rest) q = _
        rw [pingLoop, if_pos h32]
        simp
      · have hm : 0 < m := by
          simp only [List.length_append, List.length_singleton] at h32
          omega
        show pingLoop p (b :: rest) q = _
        rw [pingLoop, if_neg h32]
        rw [ih (p ++ [b]) rest q (by simp; omega) hm (by simpa using hbs)]
        rw [List.drop_succ_cons, List.take_succ_cons]
        simp

/-- On a multiple of 32 bytes, the ping loop starting from an empty buffer
enqueues exactly the consecutive 32-byte blocks and ends empty. -/
theorem pingLoop_blocks (k : Nat) (bs : List Byte) (q : List (List Byte))
    (h : bs.length = 32 * k) :
    pingLoop [] bs q = ([], q ++ chunks32 bs) := by
  induction k generalizing bs q with
  | zero =>
    have hb : bs = [] := List.length_eq_zero.mp (by omega)
    subst hb
    rw [chunks32]
    simp [pingLoop]
  | succ m ih =>
    have h32 : 32 ≤ bs.length := by omega
    rw [pingLoop_fill 32 [] bs q (by simp) (by omega) h32]
    rw [ih (bs.drop 32) _ (by simp [List.length_drop]; omega)]
    conv_rhs => rw [chunks32, dif_pos h32]
    simp

/-- The number of 32-byte blocks of a sequence of 32 times k bytes is k. -/
theorem chunks32_length (k : Nat) (bs : List Byte) (h : bs.length = 32 * k) :
    (chunks32 bs).length = k := by
  induction k generalizing bs with
  | zero => rw [chunks32, dif_neg (by omega)]; rfl
  | succ m ih =>
    rw [chunks32, dif_pos (by omega)]
    simp only [List.length_cons]
    rw [ih (bs.drop 32) (by simp [List.length_drop]; omega)]

/-- Every block produced on a multiple of 32 bytes has length 32. -/
theorem chunks32_block_length (k : Nat) (bs : List Byte) (h : bs.length = 32 * k) :
    ∀ blk ∈ chunks32 bs, blk.length = 32 := by
  induction k generalizing bs with
  | zero => rw [chunks32, dif_neg (by omega)]; simp
  | succ m ih =>
    rw [chunks32, dif_pos (by omega)]
    intro blk hblk
    rcases List.mem_cons.mp hblk with h1 | h2
    · subst h1; simp [List.length_take]; omega
    · exact ih (bs.drop 32) (by simp [List.length_drop]; omega) blk h2

/-- The block at position i is the i-th consecutive 32-byte block of the
input. -/
theorem chunks32_getD (bs : List Byte) (i : Nat) (h : i < (chunks32 bs).length) :
    (chunks32 bs).getD i [] = (bs.drop (32 * i)).take 32 := by
  induction i generalizing bs with
  | zero =>
    rw [chunks32] at h ⊢
    by_cases h32 : 32 ≤ bs.length
    · rw [dif_pos h32]; simp
    · rw [dif_neg h32] at h; simp at h
  | succ m ih =>
    rw [chunks32] at h ⊢
    by_cases h32 : 32 ≤ bs.length
    · rw [dif_pos h32] at h ⊢
      simp only [List.getD_cons_succ]
      rw [ih (bs.drop 32) (by simpa using h)]
      rw [List.drop_drop]
      have harith : 32 + 32 * m = 32 * (m + 1) := by ring
      rw [harith]
    · rw [dif_neg h32] at h; simp at h

/-- The PingIn branch of the dispatch loop is exactly one ping loop over
the slice: the substream stays PingIn with the residual payload and the
completed blocks appended to its write queue. -/
theorem dispatch_pingIn (fuel : Nat) (e : Established) (sid : Nat) (p : List Byte)
    (q : List (List Byte)) (c : Bool) (d : List Byte) :
    dispatch (fuel + 1) e sid { state := .pingIn p, writeQueue := q, closed := c } d =
      .done (some { state := .pingIn (pingLoop p d q).1,
                    writeQueue := (pingLoop p d q).2, closed := c }) := by
  cases d with
  | nil => rfl
  | cons b rest => rfl

/-- C9: after a PingIn substream with empty payload buffer processes any
sequence of inbound slices totaling 32·k bytes, exactly k writes of 32
bytes each have been enqueued onto its write queue, the i-th enqueued
block being the i-th consecutive 32-byte block of the received bytes, and
the substream remains PingIn with the residual (empty) buffer; each slice
is processed by the PingIn dispatch branch as one ping loop. -/
theorem c9_ping_echo :
    (∀ (slices : List (List Byte)) (k : Nat) (q0 : List (List Byte)),
        (slices.flatten).length = 32 * k →
        pingRun slices [] q0 = ([], q0 ++ chunks32 slices.flatten)) ∧
    (∀ (slices : List (List Byte)) (k : Nat), (slices.flatten).length = 32 * k →
        (chunks32 slices.flatten).length = k) ∧
    (∀ (slices : List (List Byte)) (k : Nat) (blk : List Byte),
        (slices.flatten).length = 32 * k → blk ∈ chunks32 slices.flatten → blk.length = 32) ∧
    (∀ (bs : List Byte) (i : Nat), i < (chunks32 bs).length →
        (chunks32 bs).getD i [] = (bs.drop (32 * i)).take 32) ∧
    (∀ (fuel : Nat) (e : Established) (sid : Nat) (p : List Byte) (q : List (List Byte))
        (c : Bool) (d : List Byte),
        dispatch (fuel + 1) e sid { state := .pingIn p, writeQueue := q, closed := c } d =
          .done (some { state := .pingIn (pingLoop p d q).1,
                        writeQueue := (pingLoop p d q).2, closed := c })) :=
  ⟨fun slices k q0 h => by rw [pingRun_join, pingLoop_blocks k _ q0 h],
   fun slices k h => chunks32_length k _ h,
   fun slices k blk h hm => chunks32_block_length k _ h blk hm,
   chunks32_getD,
   dispatch_pingIn⟩

theorem c9_witness :
    pingRun [List.replicate 20 1, List.replicate 12 2] [] [] =
      ([], [] ++ chunks32 (List.flatten [List.replicate 20 1, List.replicate 12 2])) ∧
    (chunks32 (List.flatten [List.replicate 20 1, List.replicate 12 2])).length = 1 :=
  ⟨c9_ping_echo.1 [List.replicate 20 1, List.replicate 12 2] 1 [] (by decide),
   c9_ping_echo.2.1 [List.replicate 20 1, List.replicate 12 2] 1 (by decide)⟩

theorem c7_witness :
    ∃ en,
      dispatch 1
        { encryption := { decoded := [] }, yamux := { substreams := [], nextId := 0 },
          nextTimeout := none, inRequestProtocols := ["r"],
          inNotificationsProtocols := ["n"], pingProtocol := "p" } 0
        { state := .inboundNegotiating { role := .listener (["r"] ++ ["n"] ++ ["p"]) },
          writeQueue := [], closed := false } [2] = .done (some en) ∧
      en.state = .pingIn [] := by
  obtain ⟨en, h1, _, _, h4, _, _⟩ :=
    c7_inbound_negotiation_success { decoded := [] } { substreams := [], nextId := 0 }
      none ["r"] ["n"] "p" 0 [] false 0 2 (by decide)
  exact ⟨en, h1, h4 (by decide)⟩

/-! ## Claim C3 -/

theorem updateNow_fires (e : Established) (now t i : Nat) (en : Entry) (ud : Nat)
    (ht : e.nextTimeout = some t) (htn : t ≤ now)
    (hf : e.yamux.substreams.find? (expiredPred now) = some (i, en))
    (hud : en.state.requestUserData = some ud) :
    ∃ e1, e.updateNow now = (e1, some (.response i ud (.err .timeout))) ∧
      e1.yamux = e.yamux.remove i ∧ e1.yamux.nextId = e.yamux.nextId := by
  have hcond : ¬ ((match e.nextTimeout with | none => true | some t0 => decide (now < t0)) = true) := by
    rw [ht]
    simp
    omega
  simp only [Established.updateNow]
  rw [if_neg hcond, hf]
  obtain ⟨st, q0, c0⟩ := en
  cases st <;> simp only [Substream.requestUserData] at hud <;>
    first
      | exact Option.noConfusion hud
      | (cases hud
         exact ⟨_, rfl, rfl, rfl⟩)

def c3Engine : Established :=
  (((intoConnection cfgW).addRequest 0 "q" [] 7).1.addRequest 0 "q" [] 8).1

/-- C3 (counterexample): substream 1 of the engine below was created by
add_request with deadline 20 and user-tag 8, no response has arrived, and
read_write is called with now = 20 ≥ 20 — yet the call does not return the
Timeout response for substream 1: it returns the Timeout response of
substream 0, which expired at the same instant and comes first in the scan
order, so the event for substream 1 is deferred to a later call. -/
theorem c3_counterexample :
    (c3Engine.yamux.lookup 1).map (fun en => en.state.requestTimeout) = some (some 20) ∧
    (c3Engine.yamux.lookup 1).map (fun en => en.state.requestUserData) = some (some 8) ∧
    outcomeEvent (c3Engine.readWrite 20 none 0 0) = some (.response 0 7 (.err .timeout)) ∧
    ¬ outcomeEvent (c3Engine.readWrite 20 none 0 0) = some (.response 1 8 (.err .timeout)) := by
  refine ⟨?_, ?_, ?_, ?_⟩ <;> decide

/-- C3 (amended): (a) when the cached timeout has expired and the scan for
expired substreams finds a deadline-bearing substream (i, en), read_write
returns exactly one Response event with err = Timeout for i carrying the
user-tag of en, with bytes_read = bytes_written = 0, no inbound data
processed, and i dead (removed, never to be reallocated) in the returned
engine; (b) a dead identifier stays dead across every later read_write
call, and no later call emits any event carrying it. -/
theorem c3_amended :
    (∀ (e : Established) (now : Nat) (inc : Option (List Frame)) (cap0 cap1 : Nat)
        (t i : Nat) (en : Entry) (ud : Nat),
      e.nextTimeout = some t → t ≤ now →
      e.yamux.substreams.find? (expiredPred now) = some (i, en) →
      en.state.requestUserData = some ud → i < e.yamux.nextId →
      ∃ r, e.readWrite now inc cap0 cap1 = .ok r ∧
        r.event = some (.response i ud (.err .timeout)) ∧
        r.readBytes = 0 ∧ r.writtenBytes = 0 ∧ deadId r.connection i) ∧
    (∀ (e : Established) (now : Nat) (inc : Option (List Frame)) (cap0 cap1 : Nat)
        (i : Nat) (r : ReadWrite),
      deadId e i → e.readWrite now inc cap0 cap1 = .ok r →
      deadId r.connection i ∧ ∀ ev, r.event = some ev → ev.id? ≠ some i) := by
  constructor
  · intro e now inc cap0 cap1 t i en ud ht htn hf hud hi
    obtain ⟨e1, hua, hy, hn⟩ := updateNow_fires e now t i en ud ht htn hf hud
    refine ⟨{ connection := e1, readBytes := 0, writtenBytes := 0,
              wakeUpAfter := e1.nextTimeout,
              event := some (.response i ud (.err .timeout)) }, ?_, rfl, rfl, rfl, ?_⟩
    · unfold Established.readWrite
      rw [hua]
    · constructor
      · rw [hn]
        exact hi
      · rw [hy]
        exact lookup_remove_self _ _
  · intro e now inc cap0 cap1 i r hdead h
    unfold Established.readWrite at h
    split at h
    · rename_i e1 event hup
      cases h
      have hud := updateNow_dead e now e1 (some event) hup i hdead
      exact ⟨hud.1, fun ev hv => hud.2 ev hv⟩
    · rename_i e1 hup
      have hud := updateNow_dead e now e1 none hup i hdead
      split at h
      · rename_i o hret
        rw [h] at hret
        exact (decodeLoop_dead _ e1 inc 0 i hud.1).2 r hret
      · rename_i e2 tr hthrough
        have hdd := (decodeLoop_dead _ e1 inc 0 i hud.1).1 e2 tr hthrough
        cases h
        refine ⟨writeLoop_dead (cap0 + cap1 + 1) e2 cap0 cap1 0 i hdd, ?_⟩
        intro ev hv
        cases hv

def c3WEngine : Established := ((intoConnection cfgW).addRequest 0 "q" [] 7).1

def c3WEntry : Entry :=
  { state := .requestOutNegotiating 20 { role := .dialer "q" } [] 7,
    writeQueue := [[]], closed := false }

def c3DeadEngine : Established :=
  { encryption := { decoded := [] }, yamux := { substreams := [], nextId := 1 },
    nextTimeout := none, inRequestProtocols := ["r"],
    inNotificationsProtocols := ["n"], pingProtocol := "p" }

def c3DeadResult : ReadWrite :=
  { connection := c3DeadEngine, readBytes := 0, writtenBytes := 0,
    wakeUpAfter := none, event := none }

theorem c3_witness :
    (∃ r, c3WEngine.readWrite 20 none 0 0 = .ok r ∧
        r.event = some (.response 0 7 (.err .timeout)) ∧ r.readBytes = 0 ∧
        r.writtenBytes = 0 ∧ deadId r.connection 0) ∧
    (deadId c3DeadResult.connection 0 ∧
      ∀ ev, c3DeadResult.event = some ev → ev.id? ≠ some 0) := by
  constructor
  · exact c3_amended.1 c3WEngine 20 none 0 0 20 0 c3WEntry 7 rfl (by decide)
      (by decide) rfl (by decide)
  · exact c3_amended.2 c3DeadEngine 0 none 0 0 0 c3DeadResult ⟨by decide, rfl⟩ (by decide)

/-! ## Claim C10 -/

/-- C10: after a read_write call returns a Response event with a successful
(Ok) response, that substream's entry in the returned engine is in state
NegotiationFailed; data delivered on a NegotiationFailed substream is
silently discarded (the per-substream dispatch is a fixed point emitting
nothing); a StreamReset of a NegotiationFailed substream produces no event
and the loop continues; and for a well-formed engine a quiet identifier
(gone or parked in NegotiationFailed) stays quiet across every later
read_write call, which never emits any event carrying it. -/
theorem c10_response_ok_retires :
    (∀ (e : Established) (now : Nat) (inc : Option (List Frame)) (cap0 cap1 : Nat)
        (r : ReadWrite) (j ud : Nat) (v : List Byte),
      e.readWrite now inc cap0 cap1 = .ok r →
      r.event = some (.response j ud (.ok v)) →
      ∃ q c, r.connection.yamux.lookup j =
        some { state := .negotiationFailed, writeQueue := q, closed := c }) ∧
    (∀ (fuel : Nat) (e : Established) (sid : Nat) (q : List (List Byte)) (c : Bool)
        (data : List Byte),
      dispatch fuel e sid { state := .negotiationFailed, writeQueue := q, closed := c } data =
        .done (some { state := .negotiationFailed, writeQueue := q, closed := c })) ∧
    (∀ (e2 : Established) (inc1 : Option (List Frame)) (tr1 br sid : Nat),
      handleDetail e2 inc1 tr1 br (some (.streamReset sid .negotiationFailed)) =
        .again e2 inc1 tr1) ∧
    (∀ (e : Established) (now : Nat) (inc : Option (List Frame)) (cap0 cap1 : Nat)
        (i : Nat) (r : ReadWrite),
      WfIds e → quietId e i → e.readWrite now inc cap0 cap1 = .ok r →
      WfIds r.connection ∧ quietId r.connection i ∧
      ∀ ev, r.event = some ev → ev.id? ≠ some i) := by
  refine ⟨?_, ?_, ?_, ?_⟩
  · intro e now inc cap0 cap1 r j ud v h hev
    unfold Established.readWrite at h
    split at h
    · rename_i e1 event hup
      cases h
      obtain ⟨j0, ud0, hev0⟩ := updateNow_event_err e now e1 event hup
      rw [hev0] at hev
      exact RequestOutcome.noConfusion (Event.response.inj (Option.some.inj hev)).2.2
    · rename_i e1 hup
      split at h
      · rename_i o hret
        rw [h] at hret
        exact decodeLoop_response_ok _ e1 inc 0 r j ud v hret hev
      · rename_i e2 tr hthrough
        cases h
        exact Option.noConfusion hev
  · intro fuel e sid q c data
    exact dispatch_negotiationFailed fuel e sid q c data
  · intro e2 inc1 tr1 br sid
    rfl
  · intro e now inc cap0 cap1 i r hwf hq h
    unfold Established.readWrite at h
    split at h
    · rename_i e1 event hup
      cases h
      have hu := updateNow_quiet e now e1 (some event) hup i hwf hq
      exact ⟨hu.1.1, hu.1.2, fun ev hv => hu.2 ev hv⟩
    · rename_i e1 hup
      have hu := updateNow_quiet e now e1 none hup i hwf hq
      split at h
      · rename_i o hret
        rw [h] at hret
        have hd := (decodeLoop_quiet _ e1 inc 0 i hu.1.1 hu.1.2).2 r hret
        exact ⟨hd.1.1, hd.1.2, hd.2⟩
      · rename_i e2 tr hthrough
        have hd := (decodeLoop_quiet _ e1 inc 0 i hu.1.1 hu.1.2).1 e2 tr hthrough
        cases h
        have hwl := writeLoop_quiet (cap0 + cap1 + 1) e2 cap0 cap1 0 i hd.1 hd.2
        exact ⟨hwl.1, hwl.2, fun ev hv => by cases hv⟩

def c10Pending : Entry :=
  { state := .requestOut 20 7 (Framed.new 100), writeQueue := [], closed := false }

def c10Done : Entry :=
  { state := .negotiationFailed, writeQueue := [], closed := false }

def c10Engine : Established :=
  { encryption := { decoded := [Frame.dataFrame 0 [2, 9, 9]] },
    yamux := { substreams := [(0, c10Pending)], nextId := 1 },
    nextTimeout := none, inRequestProtocols := ["r"],
    inNotificationsProtocols := ["n"], pingProtocol := "p" }

def c10After : Established :=
  { encryption := { decoded := [Frame.dataFrame 0 [2, 9, 9]] },
    yamux := { substreams := [(0, c10Done)], nextId := 1 },
    nextTimeout := none, inRequestProtocols := ["r"],
    inNotificationsProtocols := ["n"], pingProtocol := "p" }

def c10Result : ReadWrite :=
  { connection := c10After, readBytes := 0, writtenBytes := 0, wakeUpAfter := none,
    event := some (.response 0 7 (.ok [9, 9])) }

def c10Quiet : Established :=
  { encryption := { decoded := [] },
    yamux := { substreams := [(0, c10Done)], nextId := 1 },
    nextTimeout := none, inRequestProtocols := ["r"],
    inNotificationsProtocols := ["n"], pingProtocol := "p" }

def c10Result2 : ReadWrite :=
  { connection := c10Quiet, readBytes := 0, writtenBytes := 0, wakeUpAfter := none,
    event := none }

theorem c10_witness :
    (∃ q c, c10Result.connection.yamux.lookup 0 =
        some { state := .negotiationFailed, writeQueue := q, closed := c }) ∧
    (WfIds c10Result2.connection ∧ quietId c10Result2.connection 0 ∧
      ∀ ev, c10Result2.event = some ev → ev.id? ≠ some 0) := by
  constructor
  · exact c10_response_ok_retires.1 c10Engine 0 none 0 0 c10Result 0 7 [9, 9]
      (by decide) (by decide)
  · exact c10_response_ok_retires.2.2.2 c10Result.connection 0 none 0 0 0 c10Result2
      ⟨by decide, by decide⟩ ⟨by decide, Or.inr ⟨[], false, by decide⟩⟩ (by decide)

/-! ## Claim C5 -/

theorem decodeLoop_succ (n : Nat) (e : Established) (inc : Option (List Frame)) (tr : Nat) :
    decodeLoop (n + 1) e inc tr =
      match decodeStep e inc tr with
      | .brk e1 tr1 => .through e1 tr1
      | .ret o => .ret o
      | .again e1 inc1 tr1 => decodeLoop n e1 inc1 tr1 := rfl

theorem writeLoop_idle_of_empty (rc : Established) (cap0 cap1 : Nat)
    (hq : ∀ p ∈ rc.yamux.substreams, p.2.writeQueue = []) :
    writeLoop (cap0 + cap1 + 1) rc cap0 cap1 0 = (rc, 0) := by
  rw [writeLoop_succ]
  by_cases hc : cap0 + cap1 = 0
  · rw [if_pos hc]
  · rw [if_neg hc]
    have hall := extractFromSubs_all_empty rc.yamux.substreams (cap0 + cap1) hq
    have hid := extractFromSubs_id_of_empty rc.yamux.substreams (cap0 + cap1) hq
    have hcnd : (rc.yamux.extractOut (cap0 + cap1)).1.length = 0 := by
      show (extractFromSubs rc.yamux.substreams (cap0 + cap1)).1.length = 0
      rw [hall.1]
      rfl
    rw [if_pos hcnd]
    have hyam : (rc.yamux.extractOut (cap0 + cap1)).2 = rc.yamux := by
      show ({ rc.yamux with
        substreams := (extractFromSubs rc.yamux.substreams (cap0 + cap1)).2 } : Yamux) = rc.yamux
      rw [hid]
    rw [hyam]

/-- C5: a read_write call that returns no event, zero bytes read and zero
bytes written leaves the engine in a state that is a fixed point for the
same inputs: calling read_write on the returned engine with the same now,
the same inbound slice and the same output capacities returns the very
same result (same engine, no event, zero bytes, same wake_up_after). -/
theorem c5_fixed_point (e : Established) (now : Nat) (inc : Option (List Frame))
    (cap0 cap1 : Nat) (r : ReadWrite)
    (h : e.readWrite now inc cap0 cap1 = .ok r)
    (hev : r.event = none) (hrb : r.readBytes = 0) (hwb : r.writtenBytes = 0) :
    r.connection.readWrite now inc cap0 cap1 = .ok r := by
  unfold Established.readWrite at h
  split at h
  · rename_i e1 event hup
    cases h
    exact Option.noConfusion hev
  · rename_i e1 hup
    split at h
    · rename_i o hret
      rw [h] at hret
      obtain ⟨ev, hev2⟩ := decodeLoop_ret_event _ e1 inc 0 r hret
      rw [hev] at hev2
      exact Option.noConfusion hev2
    · rename_i e2 tr hthrough
      have hdec2 : e2.encryption.decoded = [] :=
        decodeLoop_decoded (decodeFuel e1 inc) e1 inc 0 (by unfold decodeFuel; omega)
          e2 tr hthrough
      have hnt : e2.nextTimeout = e1.nextTimeout :=
        ((decodeLoop_inv _ e1 inc 0).1 e2 tr hthrough).1
      have hpost := updateNow_none_post e now e1 hup
      cases h
      have htr0 : tr = 0 := hrb
      have hw0 : (writeLoop (cap0 + cap1 + 1) e2 cap0 cap1 0).2 = 0 := hwb
      have hincl : incLen inc = 0 := by
        have hthrough2 := hthrough
        rw [show decodeFuel e1 inc = (decodeFuel e1 inc - 1) + 1 from
          by unfold decodeFuel; omega] at hthrough2
        rw [decodeLoop_succ] at hthrough2
        rcases hs : decodeStep e1 inc 0 with ⟨e3, tr3⟩ | ⟨e3, inc3, tr3⟩ | ⟨o⟩ <;>
          rw [hs] at hthrough2
        · have hthrough3 : DecodeOut.through e3 tr3 = .through e2 tr := hthrough2
          obtain ⟨_, ht3⟩ := DecodeOut.through.inj hthrough3
          have h3 := (decodeStep_read e1 inc 0).1 e3 tr3 hs
          omega
        · have hthrough3 : decodeLoop (decodeFuel e1 inc - 1) e3 inc3 tr3 = .through e2 tr :=
            hthrough2
          obtain ⟨h3a, h3b⟩ := (decodeStep_read e1 inc 0).2.1 e3 inc3 tr3 hs
          have h4 := (decodeLoop_read _ e3 inc3 tr3).1 e2 tr hthrough3
          rcases h4 with h4 | h4 <;> omega
        · have hthrough3 : DecodeOut.ret o = .through e2 tr := hthrough2
          exact DecodeOut.noConfusion hthrough3
      have hinc : inc = none ∨ inc = some [] := by
        cases inc with
        | none => exact Or.inl rfl
        | some l =>
          right
          have hl0 : l.length = 0 := hincl
          rw [List.length_eq_zero.mp hl0]
      by_cases hc : cap0 + cap1 = 0
      · have hw1 : writeLoop (cap0 + cap1 + 1) e2 cap0 cap1 0 = (e2, 0) := by
          rw [writeLoop_succ, if_pos hc]
        simp only [hw1]
        rw [htr0]
        exact c5_finish e1 e2 now inc cap0 cap1 hinc hdec2 hpost hnt
          (by rw [writeLoop_succ, if_pos hc])
      · by_cases hext : (e2.yamux.extractOut (cap0 + cap1)).1.length = 0
        · have hqe : ∀ p ∈ ((e2.yamux.extractOut (cap0 + cap1)).2).substreams,
              p.2.writeQueue = [] := by
            intro p hp
            exact extractFromSubs_empty_of_collect_nil e2.yamux.substreams (cap0 + cap1) hc
              (List.length_eq_zero.mp hext) p hp
          have hw1 : writeLoop (cap0 + cap1 + 1) e2 cap0 cap1 0 =
              ({ e2 with yamux := (e2.yamux.extractOut (cap0 + cap1)).2 }, 0) := by
            rw [writeLoop_succ, if_neg hc, if_pos hext]
          simp only [hw1]
          rw [htr0]
          exact c5_finish e1 { e2 with yamux := (e2.yamux.extractOut (cap0 + cap1)).2 }
            now inc cap0 cap1 hinc hdec2 hpost hnt
            (writeLoop_idle_of_empty _ cap0 cap1 hqe)
        · exfalso
          rw [writeLoop_succ, if_neg hc, if_neg hext] at hw0
          by_cases hsw : cap0 - Nat.min (e2.yamux.extractOut (cap0 + cap1)).1.length cap0 = 0
          · rw [if_pos hsw] at hw0
            have hge := writeLoop_written_ge (cap0 + cap1)
              { e2 with yamux := (e2.yamux.extractOut (cap0 + cap1)).2 }
              (cap1 - ((e2.yamux.extractOut (cap0 + cap1)).1.length - cap0))
              (cap0 - Nat.min (e2.yamux.extractOut (cap0 + cap1)).1.length cap0)
              (0 + (e2.yamux.extractOut (cap0 + cap1)).1.length)
            omega
          · rw [if_neg hsw] at hw0
            have hge := writeLoop_written_ge (cap0 + cap1)
              { e2 with yamux := (e2.yamux.extractOut (cap0 + cap1)).2 }
              (cap0 - Nat.min (e2.yamux.extractOut (cap0 + cap1)).1.length cap0)
              (cap1 - ((e2.yamux.extractOut (cap0 + cap1)).1.length - cap0))
              (0 + (e2.yamux.extractOut (cap0 + cap1)).1.length)
            omega

theorem c5_witness :
    idleResult.event = none ∧ idleResult.readBytes = 0 ∧ idleResult.writtenBytes = 0 ∧
    idleResult.connection.readWrite 0 none 0 0 = .ok idleResult :=
  ⟨rfl, rfl, rfl, c5_fixed_point (intoConnection cfgW) 0 none 0 0 idleResult rfl rfl rfl rfl⟩

end SubLite
